import Mathlib

/-!
# Verification of the saidify core (SAID derivation and encoding pipeline)

A shallow embedding of the TypeScript sources:

* `src/lib/utils.ts` — the Base64URL index tables, `b64ToInt`, `intToB64`,
  and the `Sizes` derivation-code table;
* `src/lib/versions.ts` — `versify`, `deversify`, `rematch`,
  `parseVersion1Matches`, `parseVersion2Matches`;
* `src/lib/core.ts` — `dumpBytes`, `sizeify`, `serialize`,
  `deriveSAIDBytes`, `qb64b`, `qb64`, `rawSize`, `validateRawSize`,
  `saidify`, `verify`;
* `src/lib/encoding.ts` — `toBytes`, `fromBytes`, `intToHex`.

Numbers: the sources run on JavaScript numbers.  Where the code uses 32-bit
bitwise operators (`|`, `<<` in `b64ToInt`) we model the exact two's
complement semantics over `Nat` bit patterns and reinterpret as `Int` at the
end.  `NaN` values (produced by `parseInt` on non-hex input and consumed by
arithmetic comparisons) are modelled by `Option Int` with `none` for `NaN`.
The `intToB64` loop does not terminate on `NaN` or negative inputs (the
loop variable can never reach `0`); those calls are modelled as the error
value `Err.nonterminating`.

Out-of-scope collaborators (CBOR and MessagePack byte encoders, the four
digest functions) are parameters, as the specification directs; JSON
serialization is modelled concretely, including the engine limit on string
length (V8 caps strings near `2^29` characters, so `JSON.stringify` cannot
return more than `MAX_STRING_LENGTH` characters).
-/

deriving instance DecidableEq for Except

namespace Saidify

/-- Error values for the thrown `Error`s of the sources, one constructor per
throw site family. -/
inductive Err where
  | decodeEmpty
  | unsupportedCode
  | unsupportedKind
  | missingLabel
  | missingVersionField
  | invalidVersionString
  | invalidProtocol
  | invalidMajor
  | incompatibleMajor
  | invalidMinor
  | invalidKind
  | invalidSize
  | emptyCode
  | variableSize
  | insufficientRaw
  | invalidPadSize
  | missingDigestField
  | rangeError
  | nonterminating
deriving DecidableEq

/-- The Base64URL alphabet in index order (the `B64ChrByIdx` table of
`utils.ts`): `A`–`Z` are 0–25, `a`–`z` are 26–51, `0`–`9` are 52–61,
`-` is 62 and `_` is 63. -/
def b64Alphabet : List Char :=
  ("ABCDEFGHIJKLMNOPQRSTUVWXYZabcdefghijklmnopqrstuvwxyz0123456789-_").data

/-- `B64ChrByIdx.get` — index to character.  Every call site uses an index
below 64, so the default is never produced. -/
def b64Chr (n : Nat) : Char := b64Alphabet.getD n 'A'

/-- Linear scan used to model the `B64IdxByChr` map lookup. -/
def b64IdxGo : List Char → Char → Nat → Option Nat
  | [], _, _ => none
  | a :: rest, c, i => if a = c then some i else b64IdxGo rest c (i + 1)

/-- `B64IdxByChr.get` — character to index, `none` when the character is not
in the 64-symbol alphabet. -/
def b64Idx (c : Char) : Option Nat := b64IdxGo b64Alphabet c 0

/-- Reinterpret a 32-bit pattern as the signed value JavaScript `ToInt32`
produces. -/
def asInt32 (u : Nat) : Int :=
  if u % 2 ^ 32 < 2 ^ 31 then ((u % 2 ^ 32 : Nat) : Int)
  else ((u % 2 ^ 32 : Nat) : Int) - 2 ^ 32

/-- Bit pattern of the JavaScript shift `d << sh` for a nonnegative left
operand: the shift count is masked to five bits and the result truncated to
32 bits. -/
def jsShlPat (d sh : Nat) : Nat := (d <<< (sh % 32)) % 2 ^ 32

/-- The `rev.forEach` loop of `b64ToInt`: digits are consumed from the last
character, with `i |= idx << (e * 6)` over 32-bit patterns.  A character
outside the alphabet makes `B64IdxByChr.get(c)!` evaluate to `undefined`,
and `ToInt32(undefined) << k` is the zero pattern, so it contributes
nothing. -/
def b64ToIntAcc : List Char → Nat → Nat → Nat
  | [], _, u => u
  | c :: rest, e, u =>
    b64ToIntAcc rest (e + 1)
      (u ||| (match b64Idx c with
        | some d => jsShlPat d (6 * e)
        | none => 0))

/-- `b64ToInt` from `utils.ts`: throws only on the empty string, otherwise
accumulates `i |= idx << (e*6)` over the reversed characters and returns the
signed 32-bit result. -/
def b64ToInt (s : String) : Except Err Int :=
  if s.data.length = 0 then .error .decodeEmpty
  else .ok (asInt32 (b64ToIntAcc s.data.reverse 0 0))

/-- Fuelled base-64 digit extraction; the fuel `i + 1` always suffices
because the value shrinks by a factor of 64 each step. -/
def b64DigitsGo : Nat → Nat → List Char
  | 0, _ => []
  | fuel + 1, i =>
    if i < 64 then [b64Chr i]
    else b64DigitsGo fuel (i / 64) ++ [b64Chr (i % 64)]

/-- The digit-producing loop of `intToB64`: at least one digit, most
significant first. -/
def b64Digits (i : Nat) : List Char := b64DigitsGo (i + 1) i

/-- `intToB64` from `utils.ts` for nonnegative values: when `l = 0` the
loop body never runs and the empty string is returned; otherwise the digits
of `i` are produced and left-padded with `A` to at least `l` characters. -/
def intToB64 (i : Nat) (l : Nat) : String :=
  if l = 0 then String.mk []
  else String.mk (List.replicate (l - (b64Digits i).length) 'A' ++ b64Digits i)

/-- `intToB64` lifted to JavaScript numbers: on `NaN` or a negative value
the loop variable never reaches `0`, so the source loop never exits. -/
def intToB64E (v : Option Int) (l : Nat) : Except Err String :=
  match v with
  | none => .error .nonterminating
  | some n => if n < 0 then .error .nonterminating else .ok (intToB64 n.toNat l)

/-- Lowercase hexadecimal digit characters. -/
def hexAlphabet : List Char := ("0123456789abcdef").data

/-- Digit character for `Number.prototype.toString(16)`. -/
def hexChr (n : Nat) : Char := hexAlphabet.getD n '0'

/-- Fuelled hexadecimal digit extraction. -/
def hexDigitsGo : Nat → Nat → List Char
  | 0, _ => []
  | fuel + 1, i =>
    if i < 16 then [hexChr i]
    else hexDigitsGo fuel (i / 16) ++ [hexChr (i % 16)]

/-- Digits of `i` in base 16, lowercase, most significant first. -/
def hexDigits (i : Nat) : List Char := hexDigitsGo (i + 1) i

/-- `String.prototype.padStart` with a single-character pad. -/
def padStart (s : String) (l : Nat) (c : Char) : String :=
  String.mk (List.replicate (l - s.data.length) c ++ s.data)

/-- `intToHex` from `encoding.ts`: `value.toString(16).padStart(length, '0')`,
including the sign `toString` emits on negative values. -/
def intToHex (v : Int) (l : Nat) : String :=
  if v < 0 then padStart (String.mk ('-' :: hexDigits (-v).toNat)) l '0'
  else padStart (String.mk (hexDigits v.toNat)) l '0'

/-- `intToHex` on a JavaScript number that may be `NaN`:
`NaN.toString(16)` is the three-character string `NaN`, then padded. -/
def numToHex (v : Option Int) (l : Nat) : String :=
  match v with
  | none => padStart ("NaN") l '0'
  | some n => intToHex n l

/-- Hexadecimal digit test of `parseInt` with radix 16 (case insensitive). -/
def isHexDigitJS (c : Char) : Bool :=
  (('0' ≤ c) && (c ≤ '9')) || (('a' ≤ c) && (c ≤ 'f')) || (('A' ≤ c) && (c ≤ 'F'))

/-- Value of a hexadecimal digit character. -/
def hexVal (c : Char) : Nat :=
  if ('0' ≤ c) && (c ≤ '9') then c.toNat - 48
  else if ('a' ≤ c) && (c ≤ 'f') then c.toNat - 87
  else c.toNat - 55

/-- Longest hexadecimal-digit run from the front; `none` when no digit was
consumed (the `NaN` case of `parseInt`). -/
def parseHexRun : List Char → Option Nat → Option Nat
  | [], acc => acc
  | c :: rest, acc =>
    if isHexDigitJS c then parseHexRun rest (some ((acc.getD 0) * 16 + hexVal c))
    else acc

/-- `parseInt(s, 16)` as used on the version-string capture groups: optional
sign, optional `0x`/`0X` prefix, then the longest run of hexadecimal digits;
`NaN` (here `none`) when that run is empty.  The capture groups never
contain whitespace, so trimming is not modelled. -/
def parseIntHex (s : String) : Option Int :=
  let l := s.data
  let sign : Int := if l.head? = some '-' then -1 else 1
  let l1 := if l.head? = some '-' ∨ l.head? = some '+' then l.tail else l
  let l2 :=
    if l1.head? = some '0' ∧ (l1.tail.head? = some 'x' ∨ l1.tail.head? = some 'X')
    then l1.tail.tail else l1
  match parseHexRun l2 none with
  | none => none
  | some n => some (sign * n)

/-- Modelled from the spec: `encodeBase64Url` from `src/lib/base64.ts`
(imported by `core.ts` but absent from the provided sources).  Standard
RFC 4648 URL-safe Base64 of a byte sequence using the alphabet above:
each 3-byte group becomes 4 characters, a trailing group of 1 or 2 bytes is
padded with `=`. -/
def encodeBase64Url : List Nat → List Char
  | [] => []
  | [b1] => [b64Chr (b1 / 4 % 64), b64Chr (b1 % 4 * 16), '=', '=']
  | [b1, b2] => [b64Chr (b1 / 4 % 64), b64Chr (b1 % 4 * 16 + b2 / 16 % 16),
      b64Chr (b2 % 16 * 4), '=']
  | b1 :: b2 :: b3 :: rest =>
    b64Chr (b1 / 4 % 64) :: b64Chr (b1 % 4 * 16 + b2 / 16 % 16) ::
      b64Chr (b2 % 16 * 4 + b3 / 64 % 4) :: b64Chr (b3 % 64) ::
      encodeBase64Url rest

/-- UTF-8 encoding of one scalar value (`TextEncoder`). -/
def utf8Char (c : Char) : List Nat :=
  let n := c.toNat
  if n < 128 then [n]
  else if n < 2048 then [192 + n / 64, 128 + n % 64]
  else if n < 65536 then [224 + n / 4096, 128 + n / 64 % 64, 128 + n % 64]
  else [240 + n / 262144, 128 + n / 4096 % 64, 128 + n / 64 % 64, 128 + n % 64]

/-- `toBytes` from `encoding.ts` (`TextEncoder.encode`). -/
def toBytes (s : String) : List Nat := (s.data.map utf8Char).flatten

/-- `fromBytes` from `encoding.ts` (`TextDecoder.decode`).  Every byte
sequence decoded in this code base is the `toBytes` image of a pure-ASCII
string, where UTF-8 decoding is the identity on code points, which is what
this model computes. -/
def fromBytes (l : List Nat) : String := String.mk (l.map (fun b => Char.ofNat (b % 256)))

/-! ## Data model -/

/-- `Serials` from `core.ts`: the serialization kinds of the version field. -/
inductive Serials where
  | JSON
  | CBOR
  | MGPK
deriving DecidableEq

/-- `Protocols` from `core.ts`. -/
inductive Protocols where
  | KERI
  | ACDC
deriving DecidableEq

/-- The string value of a `Protocols` member. -/
def protocolStr : Protocols → String
  | .KERI => ("KERI")
  | .ACDC => ("ACDC")

/-- `Object.values(Protocols).includes` followed by the cast. -/
def protocolOfStr (s : String) : Option Protocols :=
  if s = ("KERI") then some .KERI
  else if s = ("ACDC") then some .ACDC
  else none

/-- The string value of a `Serials` member. -/
def serialStr : Serials → String
  | .JSON => ("JSON")
  | .CBOR => ("CBOR")
  | .MGPK => ("MGPK")

/-- `Object.values(Serials).includes` followed by the cast. -/
def serialOfStr (s : String) : Option Serials :=
  if s = ("JSON") then some .JSON
  else if s = ("CBOR") then some .CBOR
  else if s = ("MGPK") then some .MGPK
  else none

/-- A field value of the caller's data structure.  The claims and tests only
exercise string and integer-number fields, which also keeps the JSON
serialization model exact. -/
inductive Val where
  | vstr (s : String)
  | vnum (n : Int)
deriving DecidableEq

/-- `Dict` from `data-structures.ts`, with the semantically significant
insertion order made explicit as a key-value sequence (spec section 9). -/
abbrev Dict : Type := List (String × Val)

/-- Property read `data[k]`. -/
def dictGet (d : Dict) (k : String) : Option Val :=
  (d.find? (fun p => p.1 = k)).map (fun p => p.2)

/-- The `k in data` test. -/
def hasKey (d : Dict) (k : String) : Bool := (dictGet d k).isSome

/-- Property write `data[k] = v`: an existing key keeps its position, a new
key is appended, exactly as JavaScript objects preserve insertion order. -/
def setKey (d : Dict) (k : String) (v : Val) : Dict :=
  if hasKey d k then d.map (fun p => if p.1 = k then (p.1, v) else p)
  else d ++ [(k, v)]

/-- String coercion applied when a non-string field reaches a string
position (for example `deversify` on a numeric `v` field). -/
def valToString (v : Val) : String :=
  match v with
  | .vstr s => s
  | .vnum n => toString n

/-! ## JSON serialization (`JSON.stringify` on these value shapes) -/

/-- Escape one character inside a JSON string literal. -/
def jsonEscapeChar (c : Char) : List Char :=
  if c = Char.ofNat 34 then [Char.ofNat 92, Char.ofNat 34]
  else if c = Char.ofNat 92 then [Char.ofNat 92, Char.ofNat 92]
  else if 32 ≤ c.toNat then [c]
  else if c.toNat = 8 then [Char.ofNat 92, 'b']
  else if c.toNat = 9 then [Char.ofNat 92, 't']
  else if c.toNat = 10 then [Char.ofNat 92, 'n']
  else if c.toNat = 12 then [Char.ofNat 92, 'f']
  else if c.toNat = 13 then [Char.ofNat 92, 'r']
  else [Char.ofNat 92, 'u', '0', '0', hexChr (c.toNat / 16), hexChr (c.toNat % 16)]

/-- A JSON string literal. -/
def jsonString (s : String) : List Char :=
  Char.ofNat 34 :: (s.data.map jsonEscapeChar).flatten ++ [Char.ofNat 34]

/-- JSON text of one field value. -/
def jsonVal : Val → List Char
  | .vstr s => jsonString s
  | .vnum n => (toString n).data

/-- JSON text of the whole structure, fields in insertion order. -/
def jsonDict (d : Dict) : List Char :=
  '{' :: (List.intercalate [','] (d.map (fun p => jsonString p.1 ++ ':' :: jsonVal p.2))) ++ ['}']

/-- The V8 cap on string length: `JSON.stringify` cannot return a longer
string, it throws a `RangeError` instead. -/
def MAX_STRING_LENGTH : Nat := 2 ^ 29

/-- The external CBOR and MessagePack encoders (spec: out-of-scope
collaborators).  Their outputs live in JavaScript `Buffer`s, which cannot
exceed `2^32` bytes. -/
structure ExtCodecs where
  cbor : Dict → List Nat
  mgpk : Dict → List Nat
  cbor_bounded : ∀ d, (cbor d).length < 2 ^ 32
  mgpk_bounded : ∀ d, (mgpk d).length < 2 ^ 32

/-- `dumpBytes` from `core.ts`: serialization dispatch by kind. -/
def dumpBytes (C : ExtCodecs) (data : Dict) (kind : Serials) : Except Err (List Nat) :=
  match kind with
  | .JSON =>
    let s := jsonDict data
    if s.length < MAX_STRING_LENGTH then .ok ((s.map utf8Char).flatten)
    else .error .rangeError
  | .CBOR => .ok (C.cbor data)
  | .MGPK => .ok (C.mgpk data)

/-! ## Version string codec (`versions.ts`) -/

/-- `[A-Z]` character class. -/
def isUpperAZ (c : Char) : Bool := ('A' ≤ c) && (c ≤ 'Z')

/-- `[0-9A-Za-z_-]` — the Base64URL character class of `VEREX2`. -/
def isB64Chr (c : Char) : Bool :=
  isUpperAZ c || (('a' ≤ c) && (c ≤ 'z')) || (('0' ≤ c) && (c ≤ '9')) || (c = '-') || (c = '_')

/-- `[0-9a-f]` — the lowercase hexadecimal class of `VEREX1`. -/
def isHexLower (c : Char) : Bool := (('0' ≤ c) && (c ≤ '9')) || (('a' ≤ c) && (c ≤ 'f'))

/-- A match of the combined `VEREX = VEREX2|VEREX1` pattern of
`versions.ts`: the full match and the ten capture groups — `VEREX2` owns
groups 1–5, `VEREX1` owns groups 6–10.  A capture group belonging to the
alternative that did not participate in the match is `undefined` in
JavaScript, modelled as `none`. -/
structure VMatch where
  full : List Char
  g1 : Option (List Char)
  g2 : Option (List Char)
  g3 : Option (List Char)
  g4 : Option (List Char)
  g5 : Option (List Char)
  g6 : Option (List Char)
  g7 : Option (List Char)
  g8 : Option (List Char)
  g9 : Option (List Char)
  g10 : Option (List Char)
deriving DecidableEq

/-- Attempt the `VEREX2` alternative at the head of the list:
`([A-Z]{4})([0-9A-Za-z_-])([0-9A-Za-z_-]{2})([A-Z]{4})([0-9A-Za-z_-]{4})\.`,
a fixed-width concatenation of character classes (so the regex engine needs
no backtracking and matching here is a pure conjunction of class tests).
Its captures are groups 1–5 of the combined pattern; groups 6–10 stay
`undefined`. -/
def tryV2 (l : List Char) : Option VMatch :=
  match l with
  | c0 :: c1 :: c2 :: c3 :: c4 :: c5 :: c6 :: c7 :: c8 :: c9 :: c10 :: c11 :: c12 :: c13
      :: c14 :: c15 :: _ =>
    if isUpperAZ c0 && isUpperAZ c1 && isUpperAZ c2 && isUpperAZ c3
        && isB64Chr c4 && isB64Chr c5 && isB64Chr c6
        && isUpperAZ c7 && isUpperAZ c8 && isUpperAZ c9 && isUpperAZ c10
        && isB64Chr c11 && isB64Chr c12 && isB64Chr c13 && isB64Chr c14
        && (c15 = '.') then
      some ⟨[c0, c1, c2, c3, c4, c5, c6, c7, c8, c9, c10, c11, c12, c13, c14, c15],
        some [c0, c1, c2, c3], some [c4], some [c5, c6], some [c7, c8, c9, c10],
        some [c11, c12, c13, c14], none, none, none, none, none⟩
    else none
  | _ => none

/-- Attempt the `VEREX1` alternative at the head of the list:
`([A-Z]{4})([0-9a-f])([0-9a-f])([A-Z]{4})([0-9a-f]{6})_`.  Its captures are
groups 6–10 of the combined pattern, so groups 1–5 stay `undefined`. -/
def tryV1 (l : List Char) : Option VMatch :=
  match l with
  | c0 :: c1 :: c2 :: c3 :: c4 :: c5 :: c6 :: c7 :: c8 :: c9 :: c10 :: c11 :: c12 :: c13
      :: c14 :: c15 :: c16 :: _ =>
    if isUpperAZ c0 && isUpperAZ c1 && isUpperAZ c2 && isUpperAZ c3
        && isHexLower c4 && isHexLower c5
        && isUpperAZ c6 && isUpperAZ c7 && isUpperAZ c8 && isUpperAZ c9
        && isHexLower c10 && isHexLower c11 && isHexLower c12 && isHexLower c13
        && isHexLower c14 && isHexLower c15
        && (c16 = '_') then
      some ⟨[c0, c1, c2, c3, c4, c5, c6, c7, c8, c9, c10, c11, c12, c13, c14, c15, c16],
        none, none, none, none, none,
        some [c0, c1, c2, c3], some [c4], some [c5], some [c6, c7, c8, c9],
        some [c10, c11, c12, c13, c14, c15]⟩
    else none
  | _ => none

/-- `Rever.exec`: the leftmost match of `VEREX2|VEREX1`, trying the
alternatives in source order at each successive start position. -/
def scan : List Char → Option VMatch
  | [] => none
  | c :: rest =>
    match tryV2 (c :: rest) with
    | some m => some m
    | none =>
      match tryV1 (c :: rest) with
      | some m => some m
      | none => scan rest

/-- A JavaScript number that may be `NaN` (`none`). -/
abbrev VNum : Type := Option Int

/-- The `Version` object: major and minor as JavaScript numbers. -/
structure VersionV where
  major : VNum
  minor : VNum
deriving DecidableEq

/-- `Smellage`: protocol, version, serialization kind and size. -/
abbrev Smellage : Type := Protocols × VersionV × Serials × VNum

/-- `parseVersion1Matches` from `versions.ts`: reads capture groups 1–5 of
the combined match, then protocol check, `b64ToInt` decoding and the
`major < 2` rejection.  A `VEREX1` match leaves groups 1–5 `undefined` (its
captures are groups 6–10), so the membership test
`Object.values(Protocols).includes(undefined)` fails and this parser throws
the invalid-protocol error on every dialect-1 match.  An `undefined`
reaching `b64ToInt` would raise a `TypeError` on `s.length` that the
surrounding `try` rethrows as that field's error. -/
def parseVersion1Matches (m : VMatch) : Except Err Smellage := do
  let proto ← match m.g1 with
    | some g =>
      match protocolOfStr (String.mk g) with
      | some p => pure p
      | none => throw Err.invalidProtocol
    | none => throw Err.invalidProtocol
  let major ← match m.g2 with
    | some g =>
      match b64ToInt (String.mk g) with
      | .ok v => pure v
      | .error _ => throw Err.invalidMajor
    | none => throw Err.invalidMajor
  if major < 2 then throw Err.incompatibleMajor
  let minor ← match m.g3 with
    | some g =>
      match b64ToInt (String.mk g) with
      | .ok v => pure v
      | .error _ => throw Err.invalidMinor
    | none => throw Err.invalidMinor
  let kind ← match m.g4 with
    | some g =>
      match serialOfStr (String.mk g) with
      | some k => pure k
      | none => throw Err.invalidKind
    | none => throw Err.invalidKind
  let size ← match m.g5 with
    | some g =>
      match b64ToInt (String.mk g) with
      | .ok v => pure v
      | .error _ => throw Err.invalidSize
    | none => throw Err.invalidSize
  return (proto, ⟨some major, some minor⟩, kind, some size)

/-- `parseVersion2Matches` from `versions.ts`: reads capture groups 1–5
(which are exactly the `VEREX2` captures), with the fields decoded by
`parseInt(_, 16)` — which never throws: `parseInt(undefined, 16)` is `NaN`,
`NaN` survives as `none`, and `NaN < 2` is false so a `NaN` major passes the
compatibility check. -/
def parseVersion2Matches (m : VMatch) : Except Err Smellage := do
  let proto ← match m.g1 with
    | some g =>
      match protocolOfStr (String.mk g) with
      | some p => pure p
      | none => throw Err.invalidProtocol
    | none => throw Err.invalidProtocol
  let majorO := match m.g2 with
    | some g => parseIntHex (String.mk g)
    | none => none
  match majorO with
  | some v => if v < 2 then throw Err.incompatibleMajor else pure ()
  | none => pure ()
  let minorO := match m.g3 with
    | some g => parseIntHex (String.mk g)
    | none => none
  let kind ← match m.g4 with
    | some g =>
      match serialOfStr (String.mk g) with
      | some k => pure k
      | none => throw Err.invalidKind
    | none => throw Err.invalidKind
  let sizeO := match m.g5 with
    | some g => parseIntHex (String.mk g)
    | none => none
  return (proto, ⟨majorO, minorO⟩, kind, sizeO)

/-- `rematch` from `versions.ts`: dispatch on the total length and
terminator of the full match. -/
def rematch (m : VMatch) : Except Err Smellage :=
  if m.full.length = 16 ∧ m.full.getLast? = some '.' then parseVersion2Matches m
  else if m.full.length = 17 ∧ m.full.getLast? = some '_' then parseVersion1Matches m
  else .error .invalidVersionString

/-- `deversify` from `versions.ts`. -/
def deversify (s : String) : Except Err Smellage :=
  match scan s.data with
  | none => .error .invalidVersionString
  | some m => rematch m

/-- The dialect-2 branch of `versify` (taken when `version.major < 2` is
false, which includes a `NaN` major). -/
def versifyD2 (protocol : Protocols) (version : VersionV) (kind : Serials)
    (size : VNum) : Except Err String := do
  let major ← intToB64E version.major 1
  let minor ← intToB64E version.minor 1
  let formattedSize ← intToB64E size 6
  return protocolStr protocol ++ major ++ minor ++ serialStr kind ++ formattedSize
    ++ String.mk ['.']

/-- `versify` from `versions.ts`, `VERRAWSIZE = 6`. -/
def versify (protocol : Protocols) (version : VersionV) (kind : Serials)
    (size : VNum) : Except Err String :=
  match version.major with
  | some mj =>
    if mj < 2 then
      .ok (protocolStr protocol ++ intToHex mj 0 ++ numToHex version.minor 0
        ++ serialStr kind ++ numToHex size 6 ++ String.mk ['_'])
    else versifyD2 protocol version kind size
  | none => versifyD2 protocol version kind size

/-! ## Derivation code table and digest registry -/

/-- `Sizeage` from `utils.ts`: hard, soft, full and lead sizes of a
derivation code.  `fs` is an `Int` because `-1` marks variable-size codes. -/
structure Sizeage where
  hs : Nat
  ss : Nat
  fs : Int
  ls : Nat
deriving DecidableEq

/-- The `Sizes` table: the four supported self-addressing derivation codes,
each one character of code followed by 43 characters of value. -/
def Sizes (code : String) : Option Sizeage :=
  if code = ("E") then some ⟨1, 0, 44, 0⟩
  else if code = ("F") then some ⟨1, 0, 44, 0⟩
  else if code = ("I") then some ⟨1, 0, 44, 0⟩
  else if code = ("H") then some ⟨1, 0, 44, 0⟩
  else none

/-- The four digest collaborators (spec: out of scope, byte sequence to byte
sequence), one per derivation code. -/
structure Digests where
  blake3_256 : List Nat → List Nat
  blake2b_256 : List Nat → List Nat
  sha2_256 : List Nat → List Nat
  sha3_256 : List Nat → List Nat

/-- `DigestAlgoMap` from `digests.ts`, restricted to the digest function —
the `deriveSAIDBytes` of `core.ts` invokes only `digestage.fn(ser)`. -/
def DigestAlgoMap (D : Digests) (code : String) : Option (List Nat → List Nat) :=
  if code = ("E") then some D.blake3_256
  else if code = ("F") then some D.blake2b_256
  else if code = ("I") then some D.sha2_256
  else if code = ("H") then some D.sha3_256
  else none

/-! ## Core pipeline (`core.ts`) -/

/-- `SAID_PAD_CHARACTER` from `core.ts`. -/
def SAID_PAD_CHARACTER : Char := '#'

/-- The tuple `sizeify` returns: raw bytes, protocol, resolved kind, the
updated data object and the parsed version. -/
structure Sized where
  raw : List Nat
  protocol : Protocols
  kind : Serials
  data : Dict
  version : VersionV
deriving DecidableEq

/-- `sizeify` from `core.ts`: parse the existing `v` field, serialize to
measure, regenerate `v` with the measured size, serialize again. -/
def sizeify (C : ExtCodecs) (data : Dict) (kind : Option Serials) :
    Except Err Sized := do
  if ¬ hasKey data ("v") then throw Err.missingVersionField
  let vval := (dictGet data ("v")).getD (Val.vstr (String.mk []))
  let smell ← deversify (valToString vval)
  let (protocol, version, knd, _) := smell
  let kind := kind.getD knd
  let raw ← dumpBytes C data kind
  let size := raw.length
  let vs ← versify protocol version kind (some (size : Int))
  let data := setKey data ("v") (Val.vstr vs)
  let raw ← dumpBytes C data kind
  return ⟨raw, protocol, kind, data, version⟩

/-- `serialize` from `core.ts`: when a `v` field is present its kind is
parsed (and any parse failure propagates) even though an explicitly passed
kind wins. -/
def serialize (C : ExtCodecs) (data : Dict) (kind : Option Serials) :
    Except Err (List Nat) := do
  let knd ← match dictGet data ("v") with
    | some v => (deversify (valToString v)).map (fun r => r.2.2.1)
    | none => pure Serials.JSON
  let kind := kind.getD knd
  dumpBytes C data kind

/-- `rawSize` from `core.ts`: raw byte size for a code, inverting the 4-to-3
Base64 expansion (the float product `b64Size * (3/4)` is exact here) and
subtracting the lead bytes. -/
def rawSize (code : String) : Except Err Int := do
  if code.length = 0 then throw Err.emptyCode
  let sizeage ← match Sizes code with
    | some s => pure s
    | none => throw Err.unsupportedCode
  if sizeage.fs = -1 then throw Err.variableSize
  let cs : Int := sizeage.hs + sizeage.ss
  let b64Size := sizeage.fs - cs
  return (b64Size * 3).fdiv 4 - sizeage.ls

/-- `validateRawSize` from `core.ts`: keep the first `rawSize` bytes and
insist nothing was missing. -/
def validateRawSize (raw : List Nat) (code : String) : Except Err Unit := do
  let rize ← rawSize code
  let sliced := raw.take rize.toNat
  if (sliced.length : Int) ≠ rize then throw Err.insufficientRaw
  return ()

/-- `qb64b` from `core.ts` (`Matter._infil`): compute the pad size, check
the code/pad consistency invariant, prepend `ps + ls` zero bytes, Base64
encode, drop the first `ps` characters and prepend the code. -/
def qb64b (raw : List Nat) (code : String) : Except Err (List Nat) := do
  let sizeage ← match Sizes code with
    | some s => pure s
    | none => throw Err.unsupportedCode
  let cs := sizeage.hs + sizeage.ss
  let rs := raw.length
  let ps := (3 - (rs + sizeage.ls) % 3) % 3
  if (cs % 4 : Int) ≠ (ps : Int) - (sizeage.ls : Int) then throw Err.invalidPadSize
  let prepad : List Nat := List.replicate (ps + sizeage.ls) 0
  let combined := prepad ++ raw
  return toBytes (code ++ String.mk ((encodeBase64Url combined).drop ps))

/-- `qb64` from `core.ts`. -/
def qb64 (raw : List Nat) (code : String) : Except Err String :=
  (qb64b raw code).map fromBytes

/-- `deriveSAIDBytes` from `core.ts` (the exported implementation at lines
412–442): clone, placeholder the label with `fs` pad characters, re-size the
`v` field when present, serialize, digest and validate.  The digest output
is stored into a `Buffer`, whose cells are bytes. -/
def deriveSAIDBytes (D : Digests) (C : ExtCodecs) (data : Dict) (code : String)
    (kind : Serials) (label : String) : Except Err (List Nat × Dict) := do
  if ¬ hasKey data label then throw Err.missingLabel
  let data := data
  let algo ← match Sizes code with
    | some a => pure a
    | none => throw Err.unsupportedCode
  let data := setKey data label
    (Val.vstr (String.mk (List.replicate algo.fs.toNat SAID_PAD_CHARACTER)))
  let (kind, data) ←
    if hasKey data ("v") then do
      let r ← sizeify C data (some kind)
      pure (r.kind, r.data)
    else pure (kind, data)
  let digestage ← match DigestAlgoMap D code with
    | some f => pure f
    | none => throw Err.unsupportedCode
  let ser ← serialize C data (some kind)
  let raw := (digestage ser).map (fun b => b % 256)
  validateRawSize raw code
  return (raw, data)

/-- `saidify` from `core.ts` (lines 570–580): derive, qualify, embed. -/
def saidify (D : Digests) (C : ExtCodecs) (data : Dict) (label : String)
    (code : String) (kind : Serials) : Except Err (String × Dict) := do
  let (raw, sad) ← deriveSAIDBytes D C data code kind label
  let said ← qb64 raw code
  return (said, setKey sad label (Val.vstr said))

/-- The strict comparison `sad[label] === said` against a possibly-omitted
`said`: a present value is never strictly equal to `undefined`, and equals a
string argument exactly when it is that string. -/
def valEqOptStr (v : Option Val) (so : Option String) : Bool :=
  match so with
  | some s => v = some (Val.vstr s)
  | none => false

/-- The strict comparison of a field value against a string. -/
def valEqStr (v : Option Val) (s : String) : Bool := v = some (Val.vstr s)

/-- `verify` from `core.ts` (lines 614–641). -/
def verify (D : Digests) (C : ExtCodecs) (sad : Dict) (said : Option String)
    (label : String) (code : String) (kind : Serials) (prefixed versioned : Bool) :
    Except Err Bool := do
  if ¬ hasKey sad label then throw Err.missingDigestField
  let (raw, derivedSad) ← deriveSAIDBytes D C sad code kind label
  if prefixed && ! valEqOptStr (dictGet sad label) said then return false
  if hasKey sad ("v") && versioned then
    if dictGet sad ("v") ≠ dictGet derivedSad ("v") then return false
  match said with
  | some s =>
    if s ≠ String.mk [] then
      let q ← qb64 raw code
      return s = q
    else
      let q ← qb64 raw code
      return valEqStr (dictGet sad label) q
  | none =>
    let q ← qb64 raw code
    return valEqStr (dictGet sad label) q

/-! ## Facts about the ordered dictionary -/

theorem dictGet_isSome_of_hasKey {d : Dict} {k : String} (h : hasKey d k = true) :
    ∃ vv, dictGet d k = some vv := by
  unfold hasKey at h
  exact Option.isSome_iff_exists.mp h

theorem find?_eq_none_of_not_hasKey {d : Dict} {k : String} (h : hasKey d k = false) :
    d.find? (fun q => q.1 = k) = none := by
  unfold hasKey dictGet at h
  rcases hf : d.find? (fun q => q.1 = k) with _ | q
  · exact hf
  · rw [hf] at h
    simp at h

theorem dictGet_map_set_self (d : Dict) (k : String) (v : Val) :
    dictGet (d.map (fun p => if p.1 = k then (p.1, v) else p)) k =
      (dictGet d k).map (fun _ => v) := by
  induction d with
  | nil => simp [dictGet]
  | cons p rest ih =>
    by_cases hp : p.1 = k
    · unfold dictGet
      rw [List.map_cons, if_pos hp, List.find?_cons_of_pos _ (by simpa using hp),
        List.find?_cons_of_pos _ (by simpa using hp)]
      simp
    · unfold dictGet
      rw [List.map_cons, if_neg hp, List.find?_cons_of_neg _ (by simpa using hp),
        List.find?_cons_of_neg _ (by simpa using hp)]
      exact ih

theorem dictGet_map_set_ne (d : Dict) (k : String) (v : Val) (k2 : String)
    (h : ¬ (k2 = k)) :
    dictGet (d.map (fun p => if p.1 = k then (p.1, v) else p)) k2 = dictGet d k2 := by
  induction d with
  | nil => simp [dictGet]
  | cons p rest ih =>
    by_cases hp : p.1 = k2
    · have hpk : ¬ (p.1 = k) := by rw [hp]; exact h
      unfold dictGet
      rw [List.map_cons, if_neg hpk, List.find?_cons_of_pos _ (by simpa using hp),
        List.find?_cons_of_pos _ (by simpa using hp)]
    · unfold dictGet
      rw [List.map_cons]
      by_cases hpk : p.1 = k
      · rw [if_pos hpk,
          List.find?_cons_of_neg _ (by simp; rw [hpk]; intro hkk; exact h hkk.symm),
          List.find?_cons_of_neg _ (by simpa using hp)]
        exact ih
      · rw [if_neg hpk, List.find?_cons_of_neg _ (by simpa using hp),
          List.find?_cons_of_neg _ (by simpa using hp)]
        exact ih

theorem dictGet_setKey_self (d : Dict) (k : String) (v : Val) :
    dictGet (setKey d k v) k = some v := by
  unfold setKey
  by_cases h : hasKey d k = true
  · rw [if_pos h, dictGet_map_set_self]
    obtain ⟨vv, hvv⟩ := dictGet_isSome_of_hasKey h
    rw [hvv]
    rfl
  · rw [if_neg h]
    unfold dictGet
    rw [List.find?_append, find?_eq_none_of_not_hasKey (by simpa using h)]
    simp

theorem dictGet_setKey_ne (d : Dict) (k : String) (v : Val) (k2 : String)
    (h : ¬ (k2 = k)) : dictGet (setKey d k v) k2 = dictGet d k2 := by
  unfold setKey
  by_cases hk : hasKey d k = true
  · rw [if_pos hk]
    exact dictGet_map_set_ne d k v k2 h
  · rw [if_neg hk]
    unfold dictGet
    rw [List.find?_append]
    rcases hf : List.find? (fun q => q.1 = k2) d with _ | q
    · rw [hf]
      have : ¬ (k = k2) := fun hkk => h hkk.symm
      simp [List.find?, this]
    · rw [hf]
      simp

theorem hasKey_setKey_self (d : Dict) (k : String) (v : Val) :
    hasKey (setKey d k v) k = true := by
  unfold hasKey
  rw [dictGet_setKey_self]
  rfl

theorem hasKey_setKey_ne (d : Dict) (k : String) (v : Val) (k2 : String)
    (h : ¬ (k2 = k)) : hasKey (setKey d k v) k2 = hasKey d k2 := by
  unfold hasKey
  rw [dictGet_setKey_ne d k v k2 h]

theorem setKey_setKey (d : Dict) (k : String) (v w : Val) :
    setKey (setKey d k v) k w = setKey d k w := by
  have hself := hasKey_setKey_self d k v
  unfold setKey
  unfold setKey at hself
  by_cases hk : hasKey d k = true
  · rw [if_pos hk] at hself
    rw [if_pos hk, if_pos hself, if_pos hk, List.map_map]
    apply List.map_congr_left
    intro p _
    by_cases hp : p.1 = k <;> simp [hp]
  · rw [if_neg hk] at hself
    rw [if_neg hk, if_pos hself, if_neg hk, List.map_append]
    have hnone := find?_eq_none_of_not_hasKey (d := d) (k := k) (by simpa using hk)
    have hmap : d.map (fun p => if p.1 = k then (p.1, w) else p) = d := by
      conv_rhs => rw [← List.map_id d]
      apply List.map_congr_left
      intro p hp
      have := List.find?_eq_none.mp hnone p hp
      simp at this
      simp [this]
    rw [hmap]
    simp

/-! ## Further alphabet facts -/

theorem mem_b64Alphabet_ne_dot {c : Char} (h : c ∈ b64Alphabet) : (c = '.') = False := by
  simp only [eq_iff_iff, iff_false]
  fin_cases h <;> decide

theorem mem_b64Alphabet_prop {c : Char} (h : c ∈ b64Alphabet) :
    ((('A' ≤ c ∧ c ≤ 'Z' ∨ 'a' ≤ c ∧ c ≤ 'z') ∨ '0' ≤ c ∧ c ≤ '9') ∨ c = '-') ∨ c = '_' := by
  have hb : isB64Chr c = true := by fin_cases h <;> decide
  simpa [isB64Chr, isUpperAZ] using hb

set_option maxHeartbeats 4000000 in
/-- A regenerated dialect-2 version string with a one-character minor never
re-parses: its only `.` sits at index 16, so the sole possible `VEREX2`
window starts at index 1 and captures an invalid protocol tag, while every
`VEREX1` window is blocked by the uppercase kind tag or the terminator. -/
theorem deversify_d2_one_minor (P K : List Char) (m n s1 s2 s3 s4 s5 s6 : Char)
    (hP : P = ['K', 'E', 'R', 'I'] ∨ P = ['A', 'C', 'D', 'C'])
    (hK : K = ['J', 'S', 'O', 'N'] ∨ K = ['C', 'B', 'O', 'R'] ∨ K = ['M', 'G', 'P', 'K'])
    (hm : m ∈ b64Alphabet) (hn : n ∈ b64Alphabet)
    (h1 : s1 ∈ b64Alphabet) (h2 : s2 ∈ b64Alphabet) (h3 : s3 ∈ b64Alphabet)
    (h4 : s4 ∈ b64Alphabet) (h5 : s5 ∈ b64Alphabet) (h6 : s6 ∈ b64Alphabet) :
    ∃ e, deversify (String.mk (P ++ [m] ++ [n] ++ K ++ [s1, s2, s3, s4, s5, s6] ++ ['.']))
      = .error e := by
  have hmP := mem_b64Alphabet_prop hm
  have hnP := mem_b64Alphabet_prop hn
  have h1P := mem_b64Alphabet_prop h1
  have h2P := mem_b64Alphabet_prop h2
  have h3P := mem_b64Alphabet_prop h3
  have h4P := mem_b64Alphabet_prop h4
  have h5P := mem_b64Alphabet_prop h5
  have h6P := mem_b64Alphabet_prop h6
  have h5d := mem_b64Alphabet_ne_dot h5
  have h6d := mem_b64Alphabet_ne_dot h6
  rcases hP with rfl | rfl <;> rcases hK with rfl | rfl | rfl <;>
    (unfold deversify
     simp only [List.append_assoc, List.cons_append, List.nil_append]
     by_cases hmu : 'A' ≤ m ∧ m ≤ 'Z' <;>
       by_cases hs1 : 'A' ≤ s1 ∧ s1 ≤ 'Z' <;>
         by_cases hs2 : 'A' ≤ s2 ∧ s2 ≤ 'Z' <;>
           simp [scan, tryV2, tryV1, isUpperAZ, isB64Chr, isHexLower, h5d, h6d, hmu, hs1,
             hs2, hmP, hnP, h1P, h2P, h3P, h4P, h5P, h6P, rematch, parseVersion2Matches,
             protocolOfStr, String.ext_iff, bind, Except.bind])

set_option maxHeartbeats 12000000 in
/-- A regenerated dialect-2 version string with a two-character minor (its
first digit is `B`, `C` or `D`) never re-parses either. -/
theorem deversify_d2_two_minor (P K : List Char) (m n1 n2 s1 s2 s3 s4 s5 s6 : Char)
    (hP : P = ['K', 'E', 'R', 'I'] ∨ P = ['A', 'C', 'D', 'C'])
    (hK : K = ['J', 'S', 'O', 'N'] ∨ K = ['C', 'B', 'O', 'R'] ∨ K = ['M', 'G', 'P', 'K'])
    (hm : m ∈ b64Alphabet) (hn1 : n1 = 'B' ∨ n1 = 'C' ∨ n1 = 'D') (hn2 : n2 ∈ b64Alphabet)
    (h1 : s1 ∈ b64Alphabet) (h2 : s2 ∈ b64Alphabet) (h3 : s3 ∈ b64Alphabet)
    (h4 : s4 ∈ b64Alphabet) (h5 : s5 ∈ b64Alphabet) (h6 : s6 ∈ b64Alphabet) :
    ∃ e, deversify (String.mk (P ++ [m] ++ [n1, n2] ++ K ++ [s1, s2, s3, s4, s5, s6] ++ ['.']))
      = .error e := by
  have hmP := mem_b64Alphabet_prop hm
  have hn2P := mem_b64Alphabet_prop hn2
  have h1P := mem_b64Alphabet_prop h1
  have h2P := mem_b64Alphabet_prop h2
  have h3P := mem_b64Alphabet_prop h3
  have h4P := mem_b64Alphabet_prop h4
  have h5P := mem_b64Alphabet_prop h5
  have h6P := mem_b64Alphabet_prop h6
  have h5d := mem_b64Alphabet_ne_dot h5
  have h6d := mem_b64Alphabet_ne_dot h6
  rcases hP with rfl | rfl <;> rcases hK with rfl | rfl | rfl <;>
    rcases hn1 with rfl | rfl | rfl <;>
    (unfold deversify
     simp only [List.append_assoc, List.cons_append, List.nil_append]
     by_cases hmu : 'A' ≤ m ∧ m ≤ 'Z' <;>
       by_cases hs1 : 'A' ≤ s1 ∧ s1 ≤ 'Z' <;>
         by_cases hs2 : 'A' ≤ s2 ∧ s2 ≤ 'Z' <;>
           simp [scan, tryV2, tryV1, isUpperAZ, isB64Chr, isHexLower, h5d, h6d, hmu, hs1,
             hs2, hmP, hn2P, h1P, h2P, h3P, h4P, h5P, h6P, rematch, parseVersion2Matches,
             protocolOfStr, String.ext_iff, bind, Except.bind])

theorem b64Chr_mem (n : Nat) : b64Chr n ∈ b64Alphabet := by
  unfold b64Chr
  rcases h : b64Alphabet[n]? with _ | c
  · simp [List.getD, h]
    decide
  · simp [List.getD, h]
    exact List.getElem?_mem h

/-! ### Digit shapes of `intToB64` -/

theorem b64Digits_lt64 {n : Nat} (h : n < 64) : b64Digits n = [b64Chr n] := by
  unfold b64Digits
  simp [b64DigitsGo, h]

theorem b64Digits_two {n : Nat} (h64 : 64 ≤ n) (h255 : n ≤ 255) :
    b64Digits n = [b64Chr (n / 64), b64Chr (n % 64)] := by
  obtain ⟨m, rfl⟩ : ∃ m, n = m + 1 := ⟨n - 1, by omega⟩
  unfold b64Digits
  rw [show b64DigitsGo (m + 1 + 1) (m + 1)
      = if m + 1 < 64 then [b64Chr (m + 1)]
        else b64DigitsGo (m + 1) ((m + 1) / 64) ++ [b64Chr ((m + 1) % 64)] from rfl]
  rw [if_neg (by omega)]
  rw [show b64DigitsGo (m + 1) ((m + 1) / 64)
      = if (m + 1) / 64 < 64 then [b64Chr ((m + 1) / 64)]
        else b64DigitsGo m ((m + 1) / 64 / 64) ++ [b64Chr ((m + 1) / 64 % 64)] from rfl]
  rw [if_pos (by omega)]
  rfl

theorem b64DigitsGo_bound : ∀ (fuel n k : Nat), n < fuel → n < 64 ^ (k + 1) →
    (b64DigitsGo fuel n).length ≤ k + 1 ∧ ∀ c ∈ b64DigitsGo fuel n, c ∈ b64Alphabet := by
  intro fuel
  induction fuel with
  | zero => intro n k h _; omega
  | succ f ih =>
    intro n k hf hk
    by_cases h64 : n < 64
    · refine ⟨by simp [b64DigitsGo, h64], ?_⟩
      intro c hc
      simp [b64DigitsGo, h64] at hc
      rw [hc]
      exact b64Chr_mem n
    · have hk1 : 1 ≤ k := by
        by_contra hkk
        have hk0 : k = 0 := by omega
        rw [hk0] at hk
        simp at hk
        omega
      have hdiv : n / 64 < 64 ^ k := by
        rw [Nat.div_lt_iff_lt_mul (by norm_num)]
        calc n < 64 ^ (k + 1) := hk
          _ = 64 ^ k * 64 := by rw [pow_succ]
      have hfse : n / 64 < f := by
        have h1 : n / 64 < n := Nat.div_lt_self (by omega) (by norm_num)
        omega
      obtain ⟨ihl, ihm⟩ := ih (n / 64) (k - 1) hfse
        (by rw [Nat.sub_add_cancel hk1]; exact hdiv)
      constructor
      · simp only [b64DigitsGo, if_neg h64, List.length_append, List.length_cons,
          List.length_nil]
        omega
      · intro c hc
        simp only [b64DigitsGo, if_neg h64, List.mem_append, List.mem_singleton] at hc
        rcases hc with hc | hc
        · exact ihm c hc
        · rw [hc]
          exact b64Chr_mem _

theorem exists_six {L : List Char} (h : L.length = 6) :
    ∃ a b c d e f, L = [a, b, c, d, e, f] := by
  rcases L with _ | ⟨a, L⟩
  · simp at h
  rcases L with _ | ⟨b, L⟩
  · simp at h
  rcases L with _ | ⟨c, L⟩
  · simp at h
  rcases L with _ | ⟨d, L⟩
  · simp at h
  rcases L with _ | ⟨e, L⟩
  · simp at h
  rcases L with _ | ⟨f, L⟩
  · simp at h
  rcases L with _ | ⟨g, L⟩
  · exact ⟨a, b, c, d, e, f, rfl⟩
  · simp at h

theorem intToB64_one_digit {n : Nat} (h : n < 64) :
    (intToB64 n 1).data = [b64Chr n] := by
  unfold intToB64
  rw [if_neg (by norm_num), b64Digits_lt64 h]
  simp

theorem intToB64_two_digits {n : Nat} (h64 : 64 ≤ n) (h255 : n ≤ 255) :
    (intToB64 n 1).data = [b64Chr (n / 64), b64Chr (n % 64)] := by
  unfold intToB64
  rw [if_neg (by norm_num), b64Digits_two h64 h255]
  simp

theorem intToB64_six_shape {size : Nat} (h : size < 64 ^ 6) :
    ∃ t1 t2 t3 t4 t5 t6, (intToB64 size 6).data = [t1, t2, t3, t4, t5, t6] ∧
      t1 ∈ b64Alphabet ∧ t2 ∈ b64Alphabet ∧ t3 ∈ b64Alphabet ∧
      t4 ∈ b64Alphabet ∧ t5 ∈ b64Alphabet ∧ t6 ∈ b64Alphabet := by
  obtain ⟨hlen, hmem⟩ := b64DigitsGo_bound (size + 1) size 5 (by omega) h
  have hdlen : (b64Digits size).length ≤ 6 := hlen
  have hdm : ∀ c ∈ b64Digits size, c ∈ b64Alphabet := hmem
  have hlen6 : (List.replicate (6 - (b64Digits size).length) 'A' ++ b64Digits size).length
      = 6 := by
    simp
    omega
  obtain ⟨a, b, c, d, e, f, habc⟩ := exists_six hlen6
  refine ⟨a, b, c, d, e, f, ?_, ?_, ?_, ?_, ?_, ?_, ?_⟩
  · unfold intToB64
    rw [if_neg (by norm_num)]
    simpa using habc
  all_goals
    (have : ∀ x ∈ [a, b, c, d, e, f], x ∈ b64Alphabet := by
      rw [← habc]
      intro x hx
      rcases List.mem_append.1 hx with hx | hx
      · rw [List.eq_of_mem_replicate hx]
        decide
      · exact hdm x hx
     simp at this
     tauto)

/-- `deversify` rejects every string `versify` can produce through its
dialect-2 branch from a `deversify`-produced version (major in 2..63, minor
at most 255) and a serialized size small enough for its six Base64
characters (anything below `64^6`, far above what a JavaScript engine can
serialize). -/
theorem deversify_versifyD2 (p : Protocols) (k : Serials) (M N size : Nat)
    (hM2 : 2 ≤ M) (hM : M ≤ 63) (hN : N ≤ 255) (hsize : size < 64 ^ 6) :
    ∃ e, deversify (protocolStr p ++ intToB64 M 1 ++ intToB64 N 1 ++ serialStr k
      ++ intToB64 size 6 ++ String.mk ['.']) = .error e := by
  obtain ⟨t1, t2, t3, t4, t5, t6, ht, m1, m2, m3, m4, m5, m6⟩ := intToB64_six_shape hsize
  have hMd : (intToB64 M 1).data = [b64Chr M] := intToB64_one_digit (by omega)
  have hP : (protocolStr p).data = ['K', 'E', 'R', 'I'] ∨
      (protocolStr p).data = ['A', 'C', 'D', 'C'] := by
    cases p
    · left; rfl
    · right; rfl
  have hK : (serialStr k).data = ['J', 'S', 'O', 'N'] ∨
      (serialStr k).data = ['C', 'B', 'O', 'R'] ∨
      (serialStr k).data = ['M', 'G', 'P', 'K'] := by
    cases k
    · left; rfl
    · right; left; rfl
    · right; right; rfl
  have hstr : ∀ t : String, t = String.mk t.data := by intro t; cases t; rfl
  by_cases hN64 : N < 64
  · have hNd : (intToB64 N 1).data = [b64Chr N] := intToB64_one_digit hN64
    have hdata : (protocolStr p ++ intToB64 M 1 ++ intToB64 N 1 ++ serialStr k
        ++ intToB64 size 6 ++ String.mk ['.']).data
        = (protocolStr p).data ++ [b64Chr M] ++ [b64Chr N] ++ (serialStr k).data
          ++ [t1, t2, t3, t4, t5, t6] ++ ['.'] := by
      simp [hMd, hNd, ht]
    rw [hstr (protocolStr p ++ intToB64 M 1 ++ intToB64 N 1 ++ serialStr k
      ++ intToB64 size 6 ++ String.mk ['.']), hdata]
    exact deversify_d2_one_minor _ _ (b64Chr M) (b64Chr N) t1 t2 t3 t4 t5 t6 hP hK
      (b64Chr_mem M) (b64Chr_mem N) m1 m2 m3 m4 m5 m6
  · have hNd : (intToB64 N 1).data = [b64Chr (N / 64), b64Chr (N % 64)] :=
      intToB64_two_digits (by omega) hN
    have hn1 : b64Chr (N / 64) = 'B' ∨ b64Chr (N / 64) = 'C' ∨ b64Chr (N / 64) = 'D' := by
      have hq : N / 64 = 1 ∨ N / 64 = 2 ∨ N / 64 = 3 := by omega
      rcases hq with hq | hq | hq <;> rw [hq] <;> simp [b64Chr, b64Alphabet]
    have hdata : (protocolStr p ++ intToB64 M 1 ++ intToB64 N 1 ++ serialStr k
        ++ intToB64 size 6 ++ String.mk ['.']).data
        = (protocolStr p).data ++ [b64Chr M] ++ [b64Chr (N / 64), b64Chr (N % 64)]
          ++ (serialStr k).data ++ [t1, t2, t3, t4, t5, t6] ++ ['.'] := by
      simp [hMd, hNd, ht]
    rw [hstr (protocolStr p ++ intToB64 M 1 ++ intToB64 N 1 ++ serialStr k
      ++ intToB64 size 6 ++ String.mk ['.']), hdata]
    exact deversify_d2_two_minor _ _ (b64Chr M) (b64Chr (N / 64)) (b64Chr (N % 64))
      t1 t2 t3 t4 t5 t6 hP hK (b64Chr_mem M) hn1 (b64Chr_mem _) m1 m2 m3 m4 m5 m6

/-! ### Bounds on the parsed version fields -/

theorem charLe_toNat {a b : Char} (h : a ≤ b) : a.toNat ≤ b.toNat := by
  rw [Char.le_def] at h
  rw [UInt32.le_def] at h
  rw [BitVec.le_def] at h
  exact h

theorem hexVal_le {c : Char} (h : isHexDigitJS c = true) : hexVal c ≤ 15 := by
  unfold isHexDigitJS at h
  unfold hexVal
  simp only [Bool.or_eq_true, Bool.and_eq_true, decide_eq_true_eq] at h
  have h0 : ('0').toNat = 48 := rfl
  have h9 : ('9').toNat = 57 := rfl
  have ha : ('a').toNat = 97 := rfl
  have hf : ('f').toNat = 102 := rfl
  have hA : ('A').toNat = 65 := rfl
  have hF : ('F').toNat = 70 := rfl
  by_cases h09 : (decide ('0' ≤ c) && decide (c ≤ '9')) = true
  · rw [if_pos h09]
    simp only [Bool.and_eq_true, decide_eq_true_eq] at h09
    have := charLe_toNat h09.2
    rw [h9] at this
    omega
  · rw [if_neg h09]
    by_cases haf : (decide ('a' ≤ c) && decide (c ≤ 'f')) = true
    · rw [if_pos haf]
      simp only [Bool.and_eq_true, decide_eq_true_eq] at haf
      have := charLe_toNat haf.2
      rw [hf] at this
      omega
    · rw [if_neg haf]
      simp only [Bool.and_eq_true, decide_eq_true_eq, not_and_or, not_le] at h09 haf
      rcases h with (⟨hc1, hc2⟩ | ⟨hc1, hc2⟩) | ⟨hc1, hc2⟩
      · rcases h09 with hx | hx
        · exact absurd hc1 (not_le.mpr hx)
        · exact absurd hc2 (not_le.mpr hx)
      · rcases haf with hx | hx
        · exact absurd hc1 (not_le.mpr hx)
        · exact absurd hc2 (not_le.mpr hx)
      · have hle := charLe_toNat hc2
        have hge := charLe_toNat hc1
        rw [hF] at hle
        rw [hA] at hge
        omega

theorem parseHexRun_le : ∀ (l : List Char) (a : Nat) {v : Nat},
    parseHexRun l (some a) = some v → v ≤ a * 16 ^ l.length + (16 ^ l.length - 1) := by
  intro l
  induction l with
  | nil =>
    intro a v h
    simp [parseHexRun] at h
    simp only [List.length_nil, pow_zero]
    omega
  | cons c rest ih =>
    intro a v h
    unfold parseHexRun at h
    by_cases hc : isHexDigitJS c = true
    · rw [if_pos hc] at h
      simp only [Option.getD_some] at h
      have hb := ih (a * 16 + hexVal c) h
      have hv15 := hexVal_le hc
      have hp : (1 : Nat) ≤ 16 ^ rest.length := Nat.one_le_pow _ _ (by norm_num)
      have step1 : (a * 16 + hexVal c) * 16 ^ rest.length
          ≤ a * 16 * 16 ^ rest.length + 15 * 16 ^ rest.length := by
        rw [add_mul]
        have := Nat.mul_le_mul_right (16 ^ rest.length) hv15
        omega
      have htot : v ≤ a * 16 * 16 ^ rest.length + 15 * 16 ^ rest.length
          + (16 ^ rest.length - 1) := by omega
      have hring : a * 16 ^ (c :: rest).length = a * 16 * 16 ^ rest.length := by
        simp only [List.length_cons, pow_succ]
        ring
      have hring2 : (16 : Nat) ^ (c :: rest).length = 16 * 16 ^ rest.length := by
        simp only [List.length_cons, pow_succ]
        ring
      rw [hring, hring2]
      omega
    · rw [if_neg hc] at h
      simp at h
      have hp : (1 : Nat) ≤ 16 ^ (c :: rest).length := Nat.one_le_pow _ _ (by norm_num)
      have hmul : a ≤ a * 16 ^ (c :: rest).length :=
        le_mul_of_one_le_right (Nat.zero_le a) hp
      omega

theorem parseHexRun_none_le : ∀ (l : List Char) {v : Nat},
    parseHexRun l none = some v → v ≤ 16 ^ l.length - 1 := by
  intro l v h
  rcases l with _ | ⟨c, rest⟩
  · simp [parseHexRun] at h
  · unfold parseHexRun at h
    by_cases hc : isHexDigitJS c = true
    · rw [if_pos hc] at h
      simp only [Option.getD_none, Nat.zero_mul, Nat.zero_add] at h
      have hb := parseHexRun_le rest (hexVal c) h
      have hv15 := hexVal_le hc
      have hp : (1 : Nat) ≤ 16 ^ rest.length := Nat.one_le_pow _ _ (by norm_num)
      have step1 : hexVal c * 16 ^ rest.length ≤ 15 * 16 ^ rest.length :=
        Nat.mul_le_mul_right _ hv15
      have hring2 : (16 : Nat) ^ (c :: rest).length = 16 * 16 ^ rest.length := by
        simp only [List.length_cons, pow_succ]
        ring
      rw [hring2]
      omega
    · rw [if_neg hc] at h
      simp at h

theorem parseIntHex_le_aux (l2 : List Char) (sign : Int)
    (hsign : sign = 1 ∨ sign = -1) (bound : Nat) (hl : l2.length ≤ bound) {v : Int}
    (h : (match parseHexRun l2 none with
          | none => none
          | some n => some (sign * (n : Int))) = some v) :
    v ≤ 16 ^ bound - 1 := by
  rcases hrun : parseHexRun l2 none with _ | n
  · rw [hrun] at h
    simp at h
  · rw [hrun] at h
    simp only [Option.some.injEq] at h
    have hn := parseHexRun_none_le l2 hrun
    have hmono : (16 : Nat) ^ l2.length ≤ 16 ^ bound := Nat.pow_le_pow_right (by norm_num) hl
    have hpos : (1 : Nat) ≤ 16 ^ l2.length := Nat.one_le_pow _ _ (by norm_num)
    have hcast : (n : Int) ≤ (16 : Int) ^ bound - 1 := by
      have h1 : (n : Int) ≤ ((16 ^ l2.length - 1 : Nat) : Int) := by exact_mod_cast hn
      have h2 : ((16 ^ l2.length - 1 : Nat) : Int) = (16 : Int) ^ l2.length - 1 := by
        push_cast [Nat.cast_sub hpos]
        ring
      have h3 : (16 : Int) ^ l2.length ≤ (16 : Int) ^ bound := by exact_mod_cast hmono
      omega
    rcases hsign with hs | hs <;> rw [← h, hs]
    · omega
    · have hn0 : (0 : Int) ≤ (n : Int) := Int.ofNat_nonneg n
      have h16 : (1 : Int) ≤ (16 : Int) ^ bound := by
        have : (1 : Nat) ≤ 16 ^ bound := Nat.one_le_pow _ _ (by norm_num)
        exact_mod_cast this
      omega

theorem parseIntHex_le {s : String} {v : Int} (h : parseIntHex s = some v) :
    v ≤ 16 ^ s.data.length - 1 := by
  unfold parseIntHex at h
  dsimp only at h
  refine parseIntHex_le_aux _ _ ?_ s.data.length ?_ h
  · split_ifs <;> simp
  · split_ifs <;> simp [List.length_tail] <;> omega

/-! ### Inversion of the regex match and the version parsers -/

theorem tryV2_inv {l : List Char} {m : VMatch} (h : tryV2 l = some m) :
    m.full.length = 16 ∧ m.full.getLast? = some '.' ∧
      ∃ a b c, m.g2 = some [a] ∧ m.g3 = some [b, c] := by
  unfold tryV2 at h
  split at h
  · split at h
    · rename_i hcond
      simp only [Bool.and_eq_true, decide_eq_true_eq] at hcond
      injection h with h
      subst h
      refine ⟨rfl, ?_, ⟨_, _, _, rfl, rfl⟩⟩
      simp [hcond.2]
    · exact absurd h (by simp)
  · exact absurd h (by simp)

theorem tryV1_inv {l : List Char} {m : VMatch} (h : tryV1 l = some m) :
    m.full.length = 17 ∧ m.full.getLast? = some '_' ∧ m.g1 = none := by
  unfold tryV1 at h
  split at h
  · split at h
    · rename_i hcond
      simp only [Bool.and_eq_true, decide_eq_true_eq] at hcond
      injection h with h
      subst h
      refine ⟨rfl, ?_, rfl⟩
      simp [hcond.2]
    · exact absurd h (by simp)
  · exact absurd h (by simp)

theorem scan_inv : ∀ {l : List Char} {m : VMatch}, scan l = some m →
    (∃ l2, tryV2 l2 = some m) ∨ (∃ l2, tryV1 l2 = some m) := by
  intro l
  induction l with
  | nil => intro m h; simp [scan] at h
  | cons c rest ih =>
    intro m h
    unfold scan at h
    rcases h2 : tryV2 (c :: rest) with _ | m2
    · rw [h2] at h
      rcases h1 : tryV1 (c :: rest) with _ | m1
      · rw [h1] at h
        have hrest : scan rest = some m := h
        exact ih hrest
      · rw [h1] at h
        have hsome : some m1 = some m := h
        injection hsome with hsome
        subst hsome
        exact Or.inr ⟨c :: rest, h1⟩
    · rw [h2] at h
      have hsome : some m2 = some m := h
      injection hsome with hsome
      subst hsome
      exact Or.inl ⟨c :: rest, h2⟩

theorem b64IdxGo_some_lt : ∀ (l : List Char) (c : Char) (i j : Nat),
    b64IdxGo l c i = some j → j < i + l.length := by
  intro l
  induction l with
  | nil => intro c i j h; simp [b64IdxGo] at h
  | cons a rest ih =>
    intro c i j h
    unfold b64IdxGo at h
    split at h
    · injection h with h
      subst h
      simp only [List.length_cons]
      omega
    · have := ih c (i + 1) j h
      simp only [List.length_cons]
      omega

theorem b64Idx_some_lt {c : Char} {d : Nat} (h : b64Idx c = some d) : d < 64 := by
  have hlt := b64IdxGo_some_lt b64Alphabet c 0 d h
  have hlen : b64Alphabet.length = 64 := by decide
  omega

theorem asInt32_small {u : Nat} (h : u < 2 ^ 31) : asInt32 u = (u : Int) := by
  unfold asInt32
  rw [Nat.mod_eq_of_lt (lt_trans h (by norm_num))]
  rw [if_pos h]

/-- `b64ToInt` of a single character always succeeds with a value in 0..63:
the sole digit is `idx << 0` for an alphabet character and `0` otherwise. -/
theorem b64ToInt_len1 (c : Char) :
    ∃ v : Int, b64ToInt (String.mk [c]) = .ok v ∧ 0 ≤ v ∧ v ≤ 63 := by
  have hacc : b64ToIntAcc [c] 0 0 < 64 := by
    simp only [b64ToIntAcc, Nat.zero_or]
    rcases hidx : b64Idx c with _ | d
    · show (0 : Nat) < 64
      norm_num
    · show jsShlPat d (6 * 0) < 64
      have hd : d < 64 := b64Idx_some_lt hidx
      calc jsShlPat d (6 * 0) = d % 2 ^ 32 := by simp [jsShlPat]
        _ ≤ d := Nat.mod_le _ _
        _ < 64 := hd
  refine ⟨(b64ToIntAcc [c] 0 0 : Int), ?_, Int.ofNat_nonneg _, ?_⟩
  · unfold b64ToInt
    rw [if_neg (by simp)]
    have hrev : (String.mk [c]).data.reverse = [c] := by simp
    rw [hrev, asInt32_small (lt_trans hacc (by norm_num))]
  · exact_mod_cast Nat.lt_succ_iff.mp hacc

/-- `parseVersion1Matches` throws its protocol error whenever group 1 is
`undefined` — which is the case for every match of the `VEREX1`
alternative, whose captures live in groups 6–10. -/
theorem parseVersion1Matches_g1_none {m : VMatch} (h : m.g1 = none) :
    parseVersion1Matches m = .error Err.invalidProtocol := by
  unfold parseVersion1Matches
  rw [h]
  rfl

theorem parseVersion2Matches_ok_shape {m : VMatch} {p : Protocols} {ver : VersionV}
    {k : Serials} {sz : VNum} {a b c : Char}
    (hg2 : m.g2 = some [a]) (hg3 : m.g3 = some [b, c])
    (h : parseVersion2Matches m = .ok (p, ver, k, sz)) :
    (ver.major = none ∨ ∃ mj : Int, ver.major = some mj ∧ 2 ≤ mj ∧ mj ≤ 63) ∧
      (ver.minor = none ∨ ∃ n : Int, ver.minor = some n ∧ n ≤ 255) := by
  unfold parseVersion2Matches at h
  rw [hg2, hg3] at h
  rcases hg1e : m.g1 with _ | g1 <;> rw [hg1e] at h
  · simp [bind, Except.bind, throw, throwThe, MonadExceptOf.throw] at h
  try simp only [bind, Except.bind, pure, Except.pure] at h
  rcases hp : protocolOfStr (String.mk g1) with _ | p0 <;> rw [hp] at h
  · simp [bind, Except.bind, throw, throwThe, MonadExceptOf.throw] at h
  try simp only [bind, Except.bind, pure, Except.pure] at h
  rcases hmj : parseIntHex (String.mk [a]) with _ | v <;> rw [hmj] at h
  · try simp only [bind, Except.bind, pure, Except.pure] at h
    rcases hg4e : m.g4 with _ | g4 <;> rw [hg4e] at h
    · simp [bind, Except.bind, throw, throwThe, MonadExceptOf.throw] at h
    try simp only [bind, Except.bind, pure, Except.pure] at h
    rcases hk : serialOfStr (String.mk g4) with _ | k0 <;> rw [hk] at h
    · simp [bind, Except.bind, throw, throwThe, MonadExceptOf.throw] at h
    simp only [bind, Except.bind, pure, Except.pure, Except.ok.injEq,
      Prod.mk.injEq] at h
    obtain ⟨-, hver, -, -⟩ := h
    subst hver
    refine ⟨Or.inl rfl, ?_⟩
    rcases hmn : parseIntHex (String.mk [b, c]) with _ | n
    · exact Or.inl rfl
    · refine Or.inr ⟨n, rfl, ?_⟩
      have hle := parseIntHex_le hmn
      have h2 : (String.mk [b, c]).data.length = 2 := rfl
      rw [h2] at hle
      omega
  · try simp only [bind, Except.bind, pure, Except.pure] at h
    by_cases hv : v < 2
    · rw [if_pos hv] at h
      simp [bind, Except.bind, throw, throwThe, MonadExceptOf.throw] at h
    · rw [if_neg hv] at h
      try simp only [bind, Except.bind, pure, Except.pure] at h
      rcases hg4e : m.g4 with _ | g4 <;> rw [hg4e] at h
      · simp [bind, Except.bind, throw, throwThe, MonadExceptOf.throw] at h
      try simp only [bind, Except.bind, pure, Except.pure] at h
      rcases hk : serialOfStr (String.mk g4) with _ | k0 <;> rw [hk] at h
      · simp [bind, Except.bind, throw, throwThe, MonadExceptOf.throw] at h
      simp only [bind, Except.bind, pure, Except.pure, Except.ok.injEq,
        Prod.mk.injEq] at h
      obtain ⟨-, hver, -, -⟩ := h
      subst hver
      have hle := parseIntHex_le hmj
      have h1 : (String.mk [a]).data.length = 1 := rfl
      rw [h1] at hle
      refine ⟨Or.inr ⟨v, rfl, by omega, by omega⟩, ?_⟩
      rcases hmn : parseIntHex (String.mk [b, c]) with _ | n
      · exact Or.inl rfl
      · refine Or.inr ⟨n, rfl, ?_⟩
        have hle2 := parseIntHex_le hmn
        have h2 : (String.mk [b, c]).data.length = 2 := rfl
        rw [h2] at hle2
        omega

/-- Whatever `deversify` accepts, the parsed major is absent or between 2
and 63, and the parsed minor is absent or at most 255.  (Every accepted
string comes through a `VEREX2` match: a `VEREX1` match leaves capture
groups 1–5 undefined, so `parseVersion1Matches` always throws.) -/
theorem deversify_ok_shape {s : String} {p : Protocols} {ver : VersionV}
    {k : Serials} {sz : VNum} (h : deversify s = .ok (p, ver, k, sz)) :
    (ver.major = none ∨ ∃ mj : Int, ver.major = some mj ∧ 2 ≤ mj ∧ mj ≤ 63) ∧
      (ver.minor = none ∨ ∃ n : Int, ver.minor = some n ∧ n ≤ 255) := by
  unfold deversify at h
  rcases hsc : scan s.data with _ | m <;> rw [hsc] at h
  · exact absurd h (by simp)
  have h3 : rematch m = .ok (p, ver, k, sz) := h
  rcases scan_inv hsc with ⟨l2, h2⟩ | ⟨l2, h1⟩
  · obtain ⟨hlen, hlast, aa, bb, cc, hg2, hg3⟩ := tryV2_inv h2
    unfold rematch at h3
    rw [if_pos ⟨hlen, hlast⟩] at h3
    exact parseVersion2Matches_ok_shape hg2 hg3 h3
  · obtain ⟨hlen, hlast, hg1⟩ := tryV1_inv h1
    unfold rematch at h3
    rw [if_neg (by simp [hlen]), if_pos ⟨hlen, hlast⟩] at h3
    rw [parseVersion1Matches_g1_none hg1] at h3
    exact absurd h3 (by simp)

/-! ### Inversion of `versify` and size bounds of the serializers -/

theorem versifyD2_ok_inv {p : Protocols} {ver : VersionV} {k : Serials} {szo : VNum}
    {vs : String} (h : versifyD2 p ver k szo = .ok vs) :
    ∃ mj n sz : Int, ver.major = some mj ∧ 0 ≤ mj ∧ ver.minor = some n ∧ 0 ≤ n ∧
      szo = some sz ∧ 0 ≤ sz ∧
      vs = protocolStr p ++ intToB64 mj.toNat 1 ++ intToB64 n.toNat 1 ++ serialStr k
        ++ intToB64 sz.toNat 6 ++ String.mk ['.'] := by
  unfold versifyD2 at h
  rcases hmj : ver.major with _ | mj <;> rw [hmj] at h
  · simp [intToB64E, bind, Except.bind] at h
  by_cases hmj0 : mj < 0
  · simp [intToB64E, hmj0, bind, Except.bind] at h
  have e1 : intToB64E (some mj) 1 = .ok (intToB64 mj.toNat 1) := by
    simp [intToB64E, hmj0]
  rw [e1] at h
  rcases hmn : ver.minor with _ | n <;> rw [hmn] at h
  · simp [intToB64E, bind, Except.bind] at h
  by_cases hmn0 : n < 0
  · simp [intToB64E, hmn0, bind, Except.bind] at h
  have e2 : intToB64E (some n) 1 = .ok (intToB64 n.toNat 1) := by
    simp [intToB64E, hmn0]
  rw [e2] at h
  rcases szo with _ | sz
  · simp [intToB64E, bind, Except.bind] at h
  by_cases hsz0 : sz < 0
  · simp [intToB64E, hsz0, bind, Except.bind] at h
  have e3 : intToB64E (some sz) 6 = .ok (intToB64 sz.toNat 6) := by
    simp [intToB64E, hsz0]
  rw [e3] at h
  simp only [bind, Except.bind, pure, Except.pure] at h
  refine ⟨mj, n, sz, rfl, by omega, rfl, by omega, rfl, by omega, ?_⟩
  injection h with h
  exact h.symm

theorem versify_ok_inv {p : Protocols} {ver : VersionV} {k : Serials} {szo : VNum}
    {vs : String}
    (hmaj : ver.major = none ∨ ∃ mj : Int, ver.major = some mj ∧ 2 ≤ mj)
    (h : versify p ver k szo = .ok vs) : versifyD2 p ver k szo = .ok vs := by
  unfold versify at h
  rcases hmaj with hn | ⟨mj, hm, h2⟩
  · rw [hn] at h
    exact h
  · rw [hm] at h
    dsimp only at h
    rw [if_neg (by omega)] at h
    exact h

theorem utf8Char_length_le (c : Char) : (utf8Char c).length ≤ 4 := by
  unfold utf8Char
  dsimp only
  split_ifs <;> simp

theorem utf8_flatten_length_le (l : List Char) :
    ((l.map utf8Char).flatten).length ≤ 4 * l.length := by
  induction l with
  | nil => simp
  | cons c rest ih =>
    simp only [List.map_cons, List.flatten_cons, List.length_append, List.length_cons]
    have := utf8Char_length_le c
    omega

/-- Every serialization this library can produce is far below `64^6` bytes:
the JSON path is capped by the engine string-length limit and the external
codecs by the 32-bit `Buffer` bound. -/
theorem dumpBytes_length_lt {C : ExtCodecs} {data : Dict} {kind : Serials} {raw : List Nat}
    (h : dumpBytes C data kind = .ok raw) : raw.length < 64 ^ 6 := by
  have h646 : (64 : Nat) ^ 6 = 68719476736 := by norm_num
  unfold dumpBytes at h
  cases kind
  · dsimp only at h
    by_cases hlen : (jsonDict data).length < MAX_STRING_LENGTH
    · rw [if_pos hlen] at h
      injection h with h
      subst h
      have hle := utf8_flatten_length_le (jsonDict data)
      have hM : MAX_STRING_LENGTH = 536870912 := by norm_num [MAX_STRING_LENGTH]
      rw [hM] at hlen
      rw [h646]
      omega
    · rw [if_neg hlen] at h
      simp at h
  · injection h with h
    subst h
    have hb := C.cbor_bounded data
    have h32 : (2 : Nat) ^ 32 = 4294967296 := by norm_num
    rw [h32] at hb
    rw [h646]
    omega
  · injection h with h
    subst h
    have hb := C.mgpk_bounded data
    have h32 : (2 : Nat) ^ 32 = 4294967296 := by norm_num
    rw [h32] at hb
    rw [h646]
    omega

set_option maxHeartbeats 2000000 in
/-- The fatal interaction at the heart of the pipeline: when a `v` field is
present, `sizeify` regenerates it with `versify`, and the subsequent
`serialize` call re-parses that regenerated field — which `deversify` always
rejects — so the combination can never succeed. -/
theorem sizeify_then_serialize_impossible {C : ExtCodecs} {data1 : Dict} {kind : Serials}
    {r : Sized} (hv : hasKey data1 ("v") = true)
    (hsz : sizeify C data1 (some kind) = .ok r) {ser : List Nat}
    (hser : serialize C r.data (some r.kind) = .ok ser) : False := by
  unfold sizeify at hsz
  rw [if_neg (by simp [hv])] at hsz
  simp only [bind, Except.bind, pure, Except.pure] at hsz
  rcases hdv : deversify (valToString ((dictGet data1 ("v")).getD (Val.vstr (String.mk []))))
    with e | smell <;> rw [hdv] at hsz
  · simp at hsz
  obtain ⟨p, ver, knd, szo⟩ := smell
  simp only [bind, Except.bind, Option.getD_some] at hsz
  rcases hdump : dumpBytes C data1 kind with e | raw1 <;> rw [hdump] at hsz
  · simp at hsz
  simp only [bind, Except.bind] at hsz
  rcases hvs : versify p ver kind (some ((raw1.length : Int))) with e | vs <;>
    rw [hvs] at hsz
  · simp at hsz
  simp only [bind, Except.bind, pure, Except.pure] at hsz
  rcases hdump2 : dumpBytes C (setKey data1 ("v") (Val.vstr vs)) kind with e | raw2 <;>
    rw [hdump2] at hsz
  · simp at hsz
  dsimp only at hsz
  injection hsz with hsz
  subst hsz
  dsimp only at hser
  unfold serialize at hser
  rw [dictGet_setKey_self] at hser
  simp only [valToString] at hser
  obtain ⟨hmaj, hmin⟩ := deversify_ok_shape hdv
  have hd2 : versifyD2 p ver kind (some ((raw1.length : Int))) = .ok vs :=
    versify_ok_inv (by
      rcases hmaj with hn | ⟨mj, hm, h2, h3⟩
      · exact Or.inl hn
      · exact Or.inr ⟨mj, hm, h2⟩) hvs
  obtain ⟨mj, n, sz, hmje, hmj0, hmne, hmn0, hsze, hsz0, hvseq⟩ := versifyD2_ok_inv hd2
  have hmjb : 2 ≤ mj ∧ mj ≤ 63 := by
    rcases hmaj with hn | ⟨mj2, hm2, h22, h63⟩
    · rw [hn] at hmje
      exact absurd hmje (by simp)
    · rw [hm2] at hmje
      injection hmje with he
      omega
  have hn255 : n ≤ 255 := by
    rcases hmin with hn | ⟨n2, hm2, h255⟩
    · rw [hn] at hmne
      exact absurd hmne (by simp)
    · rw [hm2] at hmne
      injection hmne with he
      omega
  have hszlt : sz.toNat < 64 ^ 6 := by
    have hlt := dumpBytes_length_lt hdump
    injection hsze with he
    omega
  obtain ⟨e2, hde⟩ := deversify_versifyD2 p kind mj.toNat n.toNat sz.toNat
    (by omega) (by omega) (by omega) hszlt
  rw [← hvseq] at hde
  rw [hde] at hser
  simp [bind, Except.bind, Except.map] at hser

set_option maxHeartbeats 2000000 in
/-- A successful `deriveSAIDBytes` forces the no-`v` path: the label is
present, the code is supported, the returned structure is the input with the
label placeholdered, no `v` field exists afterwards, and the raw digest with
its validation are exactly the no-resize serialization's. -/
theorem deriveSAIDBytes_ok_inv {D : Digests} {C : ExtCodecs} {data : Dict} {code : String}
    {kind : Serials} {label : String} {raw : List Nat} {sad0 : Dict}
    (h : deriveSAIDBytes D C data code kind label = .ok (raw, sad0)) :
    hasKey data label = true ∧
      ∃ algo, Sizes code = some algo ∧
        sad0 = setKey data label
          (Val.vstr (String.mk (List.replicate algo.fs.toNat SAID_PAD_CHARACTER))) ∧
        hasKey sad0 ("v") = false ∧
        ∃ f, DigestAlgoMap D code = some f ∧
          ∃ ser, dumpBytes C sad0 kind = .ok ser ∧
            raw = (f ser).map (fun b => b % 256) ∧
            validateRawSize raw code = .ok () := by
  unfold deriveSAIDBytes at h
  by_cases hl : hasKey data label = true
  · rw [if_neg (by simp [hl])] at h
    simp only [bind, Except.bind, pure, Except.pure] at h
    rcases halgo : Sizes code with _ | algo <;> rw [halgo] at h
    · simp at h
    simp only [bind, Except.bind, pure, Except.pure] at h
    by_cases hv : hasKey (setKey data label (Val.vstr (String.mk
        (List.replicate algo.fs.toNat SAID_PAD_CHARACTER)))) ("v") = true
    · rw [if_pos hv] at h
      exfalso
      rcases hsz : sizeify C (setKey data label (Val.vstr (String.mk
          (List.replicate algo.fs.toNat SAID_PAD_CHARACTER)))) (some kind) with e | r <;>
        rw [hsz] at h
      · simp at h
      simp only [bind, Except.bind, pure, Except.pure] at h
      rcases hf : DigestAlgoMap D code with _ | f <;> rw [hf] at h
      · simp at h
      simp only [bind, Except.bind, pure, Except.pure] at h
      rcases hser : serialize C r.data (some r.kind) with e | ser2 <;> rw [hser] at h
      · simp at h
      exact sizeify_then_serialize_impossible hv hsz hser
    · rw [if_neg hv] at h
      try simp only [bind, Except.bind, pure, Except.pure] at h
      rcases hf : DigestAlgoMap D code with _ | f <;> rw [hf] at h
      · simp at h
      simp only [bind, Except.bind, pure, Except.pure] at h
      have hnov : dictGet (setKey data label (Val.vstr (String.mk
          (List.replicate algo.fs.toNat SAID_PAD_CHARACTER)))) ("v") = none := by
        rcases hx : dictGet (setKey data label (Val.vstr (String.mk
            (List.replicate algo.fs.toNat SAID_PAD_CHARACTER)))) ("v") with _ | v
        · rfl
        · exact absurd (by simp [hasKey, hx]) hv
      have hsereq : serialize C (setKey data label (Val.vstr (String.mk
          (List.replicate algo.fs.toNat SAID_PAD_CHARACTER)))) (some kind)
          = dumpBytes C (setKey data label (Val.vstr (String.mk
            (List.replicate algo.fs.toNat SAID_PAD_CHARACTER)))) kind := by
        unfold serialize
        rw [hnov]
        simp [bind, Except.bind, pure, Except.pure]
      rw [hsereq] at h
      rcases hd : dumpBytes C (setKey data label (Val.vstr (String.mk
          (List.replicate algo.fs.toNat SAID_PAD_CHARACTER)))) kind with e | ser <;>
        rw [hd] at h
      · simp at h
      simp only [bind, Except.bind, pure, Except.pure] at h
      rcases hvr : validateRawSize ((f ser).map (fun b => b % 256)) code with e | u <;>
        rw [hvr] at h
      · simp at h
      cases u
      simp only [bind, Except.bind, pure, Except.pure, Except.ok.injEq,
        Prod.mk.injEq] at h
      obtain ⟨hraw, hsad⟩ := h
      subst hraw
      refine ⟨hl, algo, rfl, hsad.symm, ?_, f, rfl, ser, ?_, rfl, hvr⟩
      · rw [← hsad]
        simp only [Bool.not_eq_true] at hv
        exact hv
      · rw [← hsad]
        exact hd
  · rw [if_pos (by simpa using hl)] at h
    simp [bind, Except.bind, throw, throwThe, MonadExceptOf.throw] at h

set_option maxHeartbeats 2000000 in
/-- Forward evaluation of `deriveSAIDBytes` along the no-`v` path. -/
theorem deriveSAIDBytes_eval (D : Digests) (C : ExtCodecs) (data : Dict) (code : String)
    (kind : Serials) (label : String) (algo : Sizeage) (f : List Nat → List Nat)
    (ser : List Nat) (hl : hasKey data label = true) (hs : Sizes code = some algo)
    (hv : hasKey (setKey data label (Val.vstr (String.mk
      (List.replicate algo.fs.toNat SAID_PAD_CHARACTER)))) ("v") = false)
    (hf : DigestAlgoMap D code = some f)
    (hd : dumpBytes C (setKey data label (Val.vstr (String.mk
      (List.replicate algo.fs.toNat SAID_PAD_CHARACTER)))) kind = .ok ser)
    (hvr : validateRawSize ((f ser).map (fun b => b % 256)) code = .ok ()) :
    deriveSAIDBytes D C data code kind label =
      .ok ((f ser).map (fun b => b % 256),
        setKey data label (Val.vstr (String.mk
          (List.replicate algo.fs.toNat SAID_PAD_CHARACTER)))) := by
  have hnov : dictGet (setKey data label (Val.vstr (String.mk
      (List.replicate algo.fs.toNat SAID_PAD_CHARACTER)))) ("v") = none := by
    rcases hx : dictGet (setKey data label (Val.vstr (String.mk
        (List.replicate algo.fs.toNat SAID_PAD_CHARACTER)))) ("v") with _ | v
    · rfl
    · rw [hasKey, hx] at hv
      simp at hv
  unfold deriveSAIDBytes
  rw [if_neg (by simp [hl])]
  simp only [bind, Except.bind, pure, Except.pure]
  rw [hs]
  simp only [bind, Except.bind, pure, Except.pure]
  rw [if_neg (by simp [hv])]
  try simp only [bind, Except.bind, pure, Except.pure]
  rw [hf]
  simp only [bind, Except.bind, pure, Except.pure]
  unfold serialize
  rw [hnov]
  simp only [bind, Except.bind, pure, Except.pure, Option.getD_some]
  rw [hd]
  simp only [bind, Except.bind, pure, Except.pure]
  rw [hvr]

/-! ## Heap embedding for the frame property

JavaScript mutation is observable only through object references.  To state
that the exported operations never write to the caller's object, the same
source code is embedded a second time over an explicit heap: addresses
index a list of objects, the spread `{ ...data }` allocates a fresh
address, and every property write goes through the heap.  The functional
embedding above is this code with the heap threading erased. -/

/-- The object heap. -/
abbrev Heap : Type := List Dict

/-- Dereference an address. -/
def hget (h : Heap) (a : Nat) : Dict := h.getD a []

/-- Overwrite the object at an address. -/
def hset (h : Heap) (a : Nat) (d : Dict) : Heap := h.set a d

/-- Allocate a fresh object (the spread `{ ...data }`), returning the new
heap and the fresh address. -/
def halloc (h : Heap) (d : Dict) : Heap × Nat := (h ++ [d], h.length)

/-- Heap form of `sizeify`: the single write `data['v'] = versify(...)`
mutates the argument object in place. -/
def sizeifyH (C : ExtCodecs) (h : Heap) (a : Nat) (kind : Option Serials) :
    Except Err (List Nat × Protocols × Serials × Nat × VersionV) × Heap :=
  let data := hget h a
  if ¬ hasKey data ("v") then (.error .missingVersionField, h)
  else
    match deversify (valToString ((dictGet data ("v")).getD (Val.vstr (String.mk [])))) with
    | .error e => (.error e, h)
    | .ok (protocol, version, knd, _) =>
      let kind := kind.getD knd
      match dumpBytes C data kind with
      | .error e => (.error e, h)
      | .ok raw =>
        match versify protocol version kind (some (raw.length : Int)) with
        | .error e => (.error e, h)
        | .ok vs =>
          let h2 := hset h a (setKey (hget h a) ("v") (Val.vstr vs))
          match dumpBytes C (hget h2 a) kind with
          | .error e => (.error e, h2)
          | .ok raw2 => (.ok (raw2, protocol, kind, a, version), h2)

/-- Tail of the heap `deriveSAIDBytes` after the optional re-sizing: digest
lookup, serialization of a fresh copy, digestion and validation — reads
only. -/
def deriveSAIDBytesHRest (D : Digests) (C : ExtCodecs) (h : Heap) (a1 : Nat)
    (code : String) (kind : Serials) : Except Err (List Nat × Nat) × Heap :=
  match DigestAlgoMap D code with
  | none => (.error .unsupportedCode, h)
  | some digestage =>
    match serialize C (hget h a1) (some kind) with
    | .error e => (.error e, h)
    | .ok ser =>
      let raw := (digestage ser).map (fun b => b % 256)
      match validateRawSize raw code with
      | .error e => (.error e, h)
      | .ok _ => (.ok (raw, a1), h)

/-- Heap form of `deriveSAIDBytes`: the reassignment `data = { ...data }`
allocates a clone before any write; the placeholder write and the re-sizing
both target the clone's address, which is returned with the digest. -/
def deriveSAIDBytesH (D : Digests) (C : ExtCodecs) (h : Heap) (a : Nat)
    (code : String) (kind : Serials) (label : String) :
    Except Err (List Nat × Nat) × Heap :=
  if ¬ hasKey (hget h a) label then (.error .missingLabel, h)
  else
    let al := halloc h (hget h a)
    match Sizes code with
    | none => (.error .unsupportedCode, al.1)
    | some algo =>
      let h1 := hset al.1 al.2 (setKey (hget al.1 al.2) label
        (Val.vstr (String.mk (List.replicate algo.fs.toNat SAID_PAD_CHARACTER))))
      if hasKey (hget h1 al.2) ("v") then
        match sizeifyH C h1 al.2 (some kind) with
        | (.error e, h2) => (.error e, h2)
        | (.ok r, h2) => deriveSAIDBytesHRest D C h2 al.2 code r.2.2.1
      else deriveSAIDBytesHRest D C h1 al.2 code kind

/-- Heap form of `saidify`: one further write, into the derived clone. -/
def saidifyH (D : Digests) (C : ExtCodecs) (h : Heap) (a : Nat) (label : String)
    (code : String) (kind : Serials) : Except Err (String × Nat) × Heap :=
  match deriveSAIDBytesH D C h a code kind label with
  | (.error e, h1) => (.error e, h1)
  | (.ok (raw, a1), h1) =>
    match qb64 raw code with
    | .error e => (.error e, h1)
    | .ok said => (.ok (said, a1), hset h1 a1 (setKey (hget h1 a1) label (Val.vstr said)))

/-- Final comparison of the heap `verify`: qualified encoding against the
supplied or embedded value, reads only. -/
def verifyHFinal (h1 : Heap) (a : Nat) (raw : List Nat) (said : Option String)
    (label : String) (code : String) : Except Err Bool × Heap :=
  match qb64 raw code with
  | .error e => (.error e, h1)
  | .ok q =>
    match said with
    | some s =>
      if s ≠ String.mk [] then (.ok (s = q), h1)
      else (.ok (valEqStr (dictGet (hget h1 a) label) q), h1)
    | none => (.ok (valEqStr (dictGet (hget h1 a) label) q), h1)

/-- Heap form of `verify`: derivation plus comparisons, no writes of its
own. -/
def verifyH (D : Digests) (C : ExtCodecs) (h : Heap) (a : Nat) (said : Option String)
    (label : String) (code : String) (kind : Serials) (prefixed versioned : Bool) :
    Except Err Bool × Heap :=
  if ¬ hasKey (hget h a) label then (.error .missingDigestField, h)
  else
    match deriveSAIDBytesH D C h a code kind label with
    | (.error e, h1) => (.error e, h1)
    | (.ok (raw, a1), h1) =>
      if prefixed && ! valEqOptStr (dictGet (hget h1 a) label) said then (.ok false, h1)
      else if hasKey (hget h1 a) ("v") && versioned then
        if dictGet (hget h1 a) ("v") ≠ dictGet (hget h1 a1) ("v") then (.ok false, h1)
        else verifyHFinal h1 a raw said label code
      else verifyHFinal h1 a raw said label code

/-! ### Frame lemmas for the heap embedding -/

theorem hget_hset_ne {h : Heap} {a b : Nat} (hne : a ≠ b) (d : Dict) :
    hget (hset h b d) a = hget h a := by
  unfold hget hset
  simp [List.getElem?_set_ne (show b ≠ a from fun hb => hne hb.symm)]

theorem hget_append {h : Heap} {a : Nat} (ha : a < h.length) (d : Dict) :
    hget (h ++ [d]) a = hget h a := by
  unfold hget
  simp [List.getElem?_append_left ha]

theorem hlen_hset (h : Heap) (b : Nat) (d : Dict) : (hset h b d).length = h.length :=
  List.length_set h b d

/-- `sizeify` writes only to the object it was handed. -/
theorem sizeifyH_frame (C : ExtCodecs) (h : Heap) (b : Nat) (kind : Option Serials)
    (x : Nat) (hx : x ≠ b) :
    hget ((sizeifyH C h b kind).2) x = hget h x ∧
      ((sizeifyH C h b kind).2).length = h.length := by
  constructor <;>
    (unfold sizeifyH
     dsimp only
     repeat' split
     all_goals simp_all [hget_hset_ne hx, hlen_hset])

/-- The digest tail never writes. -/
theorem deriveSAIDBytesHRest_heap (D : Digests) (C : ExtCodecs) (h : Heap) (a1 : Nat)
    (code : String) (kind : Serials) :
    (deriveSAIDBytesHRest D C h a1 code kind).2 = h := by
  unfold deriveSAIDBytesHRest
  dsimp only
  repeat' split
  all_goals rfl

/-- The digest tail answers with the address it was handed. -/
theorem deriveSAIDBytesHRest_ok {D : Digests} {C : ExtCodecs} {h : Heap} {a1 : Nat}
    {code : String} {kind : Serials} {raw : List Nat} {b : Nat} {h2 : Heap}
    (heq : deriveSAIDBytesHRest D C h a1 code kind = (.ok (raw, b), h2)) :
    b = a1 ∧ h2 = h := by
  unfold deriveSAIDBytesHRest at heq
  dsimp only at heq
  repeat' split at heq
  all_goals simp_all

/-- `deriveSAIDBytes` never writes below the original heap frontier: every
object the caller can reference is untouched. -/
theorem deriveSAIDBytesH_frame (D : Digests) (C : ExtCodecs) (h : Heap) (a : Nat)
    (code : String) (kind : Serials) (label : String) (x : Nat) (hx : x < h.length) :
    hget ((deriveSAIDBytesH D C h a code kind label).2) x = hget h x := by
  have hxa : x ≠ h.length := by omega
  unfold deriveSAIDBytesH halloc
  split
  · rfl
  split
  · exact hget_append hx _
  rename_i algo _
  dsimp only
  set h1 := hset (h ++ [hget h a]) (List.length h)
    (setKey (hget (h ++ [hget h a]) (List.length h)) label
      (Val.vstr (String.mk (List.replicate algo.fs.toNat SAID_PAD_CHARACTER)))) with hh1
  have hbase : hget h1 x = hget h x := by
    rw [hh1, hget_hset_ne hxa, hget_append hx]
  split
  · split
    · rename_i heq
      have hfr := (sizeifyH_frame C h1 (List.length h) (some kind) x hxa).1
      rw [heq] at hfr
      simp at hfr
      rw [hfr, hbase]
    · rename_i heq
      rw [deriveSAIDBytesHRest_heap]
      have hfr := (sizeifyH_frame C h1 (List.length h) (some kind) x hxa).1
      rw [heq] at hfr
      simp at hfr
      rw [hfr, hbase]
  · rw [deriveSAIDBytesHRest_heap, hbase]

/-- A successful derivation returns the freshly allocated clone address and
a heap that has strictly grown. -/
theorem deriveSAIDBytesH_addr {D : Digests} {C : ExtCodecs} {h : Heap} {a : Nat}
    {code : String} {kind : Serials} {label : String} {raw : List Nat} {a1 : Nat}
    {h2 : Heap} (heq : deriveSAIDBytesH D C h a code kind label = (.ok (raw, a1), h2)) :
    a1 = h.length := by
  unfold deriveSAIDBytesH halloc at heq
  split at heq
  · simp at heq
  split at heq
  · simp at heq
  dsimp only at heq
  split at heq
  · split at heq
    · simp at heq
    · exact (deriveSAIDBytesHRest_ok heq).1
  · exact (deriveSAIDBytesHRest_ok heq).1

/-- `saidify` writes only into its internal clone. -/
theorem saidifyH_frame (D : Digests) (C : ExtCodecs) (h : Heap) (a : Nat)
    (label : String) (code : String) (kind : Serials) (x : Nat) (hx : x < h.length) :
    hget ((saidifyH D C h a label code kind).2) x = hget h x := by
  unfold saidifyH
  split
  · rename_i e h1 heq
    have := deriveSAIDBytesH_frame D C h a code kind label x hx
    rw [heq] at this
    exact this
  · rename_i r h1 raw a1 heq
    have hfr := deriveSAIDBytesH_frame D C h a code kind label x hx
    rw [heq] at hfr
    simp at hfr
    have ha1 := deriveSAIDBytesH_addr heq
    split
    · exact hfr
    · rw [hget_hset_ne (by omega), hfr]

/-- `verify` never writes to the caller's object. -/
theorem verifyH_frame (D : Digests) (C : ExtCodecs) (h : Heap) (a : Nat)
    (said : Option String) (label : String) (code : String) (kind : Serials)
    (prefixed versioned : Bool) (x : Nat) (hx : x < h.length) :
    hget ((verifyH D C h a said label code kind prefixed versioned).2) x = hget h x := by
  unfold verifyH
  split
  · rfl
  split
  · rename_i e h1 heq
    have := deriveSAIDBytesH_frame D C h a code kind label x hx
    rw [heq] at this
    exact this
  · rename_i r h1 raw a1 heq
    have hfr := deriveSAIDBytesH_frame D C h a code kind label x hx
    rw [heq] at hfr
    simp at hfr
    have hfinal : ∀ hh aa rr ss ll cc, ((verifyHFinal hh aa rr ss ll cc).2) = hh := by
      intro hh aa rr ss ll cc
      unfold verifyHFinal
      repeat' split
      all_goals rfl
    split
    · exact hfr
    · split
      · split
        · exact hfr
        · rw [hfinal]; exact hfr
      · rw [hfinal]; exact hfr

/-! ## Facts about the Base64URL encoder -/

theorem mem_b64Alphabet_ascii {c : Char} (h : c ∈ b64Alphabet) : c.toNat < 128 := by
  fin_cases h <;> decide

theorem mem_b64Alphabet_ne_eq {c : Char} (h : c ∈ b64Alphabet) : c ≠ '=' := by
  fin_cases h <;> decide

theorem mem_b64Alphabet_isB64Chr {c : Char} (h : c ∈ b64Alphabet) : isB64Chr c = true := by
  fin_cases h <;> decide

theorem encodeBase64Url_length (bs : List Nat) :
    (encodeBase64Url bs).length = 4 * ((bs.length + 2) / 3) := by
  induction bs using encodeBase64Url.induct with
  | case1 => simp [encodeBase64Url]
  | case2 b1 => simp [encodeBase64Url]
  | case3 b1 b2 => simp [encodeBase64Url]
  | case4 b1 b2 b3 rest ih =>
    simp only [encodeBase64Url, List.length_cons, ih]
    omega

theorem encodeBase64Url_mem (bs : List Nat) (h3 : bs.length % 3 = 0) :
    ∀ c ∈ encodeBase64Url bs, c ∈ b64Alphabet := by
  induction bs using encodeBase64Url.induct with
  | case1 => simp [encodeBase64Url]
  | case2 b1 => simp at h3
  | case3 b1 b2 => simp at h3
  | case4 b1 b2 b3 rest ih =>
    intro c hc
    simp only [encodeBase64Url, List.mem_cons] at hc
    rcases hc with rfl | rfl | rfl | rfl | hc
    · exact b64Chr_mem _
    · exact b64Chr_mem _
    · exact b64Chr_mem _
    · exact b64Chr_mem _
    · exact ih (by simp at h3 ⊢; omega) c hc

/-- `fromBytes` inverts `toBytes` on ASCII text, which is the only text the
pipeline decodes. -/
theorem fromBytes_toBytes (l : List Char) (h : ∀ c ∈ l, c.toNat < 128) :
    fromBytes (toBytes (String.mk l)) = String.mk l := by
  unfold fromBytes toBytes
  induction l with
  | nil => simp
  | cons c rest ih =>
    have hc : c.toNat < 128 := h c (by simp)
    have hrest := ih (fun x hx => h x (by simp [hx]))
    have hdata : ∀ s t : String, s.data = t.data → s = t := by
      intro s t hst
      cases s; cases t
      simp only at hst
      rw [hst]
    apply hdata
    have hrd := congrArg String.data hrest
    simp only [List.map_cons, List.flatten_cons] at hrd ⊢
    have hu : utf8Char c = [c.toNat] := by unfold utf8Char; simp [hc]
    rw [hu]
    simp only [List.singleton_append, List.map_cons, List.cons.injEq]
    refine ⟨?_, hrd⟩
    have hm : c.toNat % 256 = c.toNat := Nat.mod_eq_of_lt (by omega)
    rw [hm]
    exact Char.ofNat_toNat c

/-- The `Sizes` table only answers for the four one-character codes, always
with the same descriptor. -/
theorem Sizes_inv {code : String} {s : Sizeage} (h : Sizes code = some s) :
    (code = ("E") ∨ code = ("F") ∨ code = ("I") ∨ code = ("H")) ∧
      s = ⟨1, 0, 44, 0⟩ := by
  unfold Sizes at h
  split_ifs at h with h1 h2 h3 h4 <;> simp_all

/-- Evaluation of `qb64b` for the supported descriptor on any raw whose
length is 2 mod 3 (the only lengths whose pad size matches the code size). -/
theorem qb64b_spec {code : String} (hc : Sizes code = some ⟨1, 0, 44, 0⟩)
    (raw : List Nat) (hr : raw.length % 3 = 2) :
    qb64b raw code =
      .ok (toBytes (code ++ String.mk ((encodeBase64Url (List.replicate 1 0 ++ raw)).drop 1))) := by
  have hps : (3 - (raw.length + 0) % 3) % 3 = 1 := by omega
  unfold qb64b
  rw [hc]
  simp only [pure, Except.pure, bind, Except.bind, hps]
  norm_num

/-- The characters of a qualified encoding built from one of the table's
codes are ASCII and the encoded part lies in the Base64URL alphabet. -/
theorem qb64_string_spec {code : String} (hc : Sizes code = some ⟨1, 0, 44, 0⟩)
    (raw : List Nat) (hr : raw.length % 3 = 2) :
    qb64 raw code =
      .ok (String.mk (code.data ++ (encodeBase64Url (List.replicate 1 0 ++ raw)).drop 1)) := by
  have hcode := (Sizes_inv hc).1
  have hmem : ∀ c ∈ (encodeBase64Url (List.replicate 1 0 ++ raw)).drop 1, c ∈ b64Alphabet := by
    intro c hcmem
    exact encodeBase64Url_mem _ (by simp; omega) c (List.drop_subset _ _ hcmem)
  have hascii : ∀ c ∈ code.data ++ (encodeBase64Url (List.replicate 1 0 ++ raw)).drop 1,
      c.toNat < 128 := by
    intro c hcmem
    rcases List.mem_append.1 hcmem with hcmem | hcmem
    · rcases hcode with rfl | rfl | rfl | rfl <;> simp_all
    · exact mem_b64Alphabet_ascii (hmem c hcmem)
  unfold qb64
  rw [qb64b_spec hc raw hr]
  have hsplit : code ++ String.mk ((encodeBase64Url (List.replicate 1 0 ++ raw)).drop 1) =
      String.mk (code.data ++ (encodeBase64Url (List.replicate 1 0 ++ raw)).drop 1) := by
    cases code
    rfl
  simp only [Except.map, hsplit]
  rw [fromBytes_toBytes _ hascii]

/-! ## Claims -/

/-- C1: for every derivation code in the `Sizes` table and every raw byte
sequence of the valid length 32, `qb64` succeeds and returns a string of
exactly `fs = 44` characters: the one-character code followed by the
Base64URL encoding of the pad-prefixed raw (`ps = 1` zero byte, `ls = 0`
lead bytes) with the first `ps` characters dropped, containing no trailing
`=` padding anywhere. -/
theorem C1_qb64_full_size (code : String)
    (hcode : code = ("E") ∨ code = ("F") ∨ code = ("I") ∨ code = ("H"))
    (raw : List Nat) (hlen : raw.length = 32) :
    qb64 raw code =
        .ok (String.mk (code.data ++ (encodeBase64Url (List.replicate 1 0 ++ raw)).drop 1)) ∧
      (String.mk (code.data ++ (encodeBase64Url (List.replicate 1 0 ++ raw)).drop 1)).length = 44 ∧
      '=' ∉ code.data ++ (encodeBase64Url (List.replicate 1 0 ++ raw)).drop 1 := by
  have hc : Sizes code = some ⟨1, 0, 44, 0⟩ := by
    rcases hcode with rfl | rfl | rfl | rfl <;> rfl
  have hr : raw.length % 3 = 2 := by omega
  have hcl : code.data.length = 1 := by
    rcases hcode with rfl | rfl | rfl | rfl <;> rfl
  refine ⟨qb64_string_spec hc raw hr, ?_, ?_⟩
  · show (code.data ++ (encodeBase64Url (List.replicate 1 0 ++ raw)).drop 1).length = 44
    have he := encodeBase64Url_length (List.replicate 1 0 ++ raw)
    simp only [List.length_append, List.length_drop, List.length_replicate, hcl] at he ⊢
    omega
  · intro hmem
    rcases List.mem_append.1 hmem with h | h
    · rcases hcode with rfl | rfl | rfl | rfl <;> simp_all
    · exact mem_b64Alphabet_ne_eq
        (encodeBase64Url_mem _ (by simp; omega) _ (List.drop_subset _ _ h)) rfl

/-- Witness for C1 at the Blake3 code and 32 zero bytes. -/
theorem C1_witness :
    qb64 (List.replicate 32 0) ("E") =
        .ok (String.mk ((("E") : String).data
          ++ (encodeBase64Url (List.replicate 1 0 ++ List.replicate 32 0)).drop 1)) ∧
      (String.mk ((("E") : String).data
        ++ (encodeBase64Url (List.replicate 1 0 ++ List.replicate 32 0)).drop 1)).length = 44 ∧
      '=' ∉ (("E") : String).data
        ++ (encodeBase64Url (List.replicate 1 0 ++ List.replicate 32 0)).drop 1 :=
  C1_qb64_full_size ("E") (Or.inl rfl) (List.replicate 32 0) (by simp)

/-- C9: `qb64b` never validates the raw length against the code's raw size:
for every supported code and every raw whose length satisfies the padding
congruence (here `raw.length % 3 = 2`, which makes `ps = 1 = cs % 4 + ls`),
the call succeeds with a string of `(hs + ss) + 4 * (r + ps + ls) / 3 - ps`
characters, and that count is the full size 44 exactly when `r = 32`. -/
theorem C9_qb64b_no_length_validation (code : String)
    (hcode : code = ("E") ∨ code = ("F") ∨ code = ("I") ∨ code = ("H"))
    (raw : List Nat) (hr : raw.length % 3 = 2) :
    (qb64 raw code).map String.length = .ok (1 + 4 * ((raw.length + 1 + 0) / 3) - 1) ∧
      ((qb64 raw code).map String.length = .ok 44 ↔ raw.length = 32) := by
  have hc : Sizes code = some ⟨1, 0, 44, 0⟩ := by
    rcases hcode with rfl | rfl | rfl | rfl <;> rfl
  have hcl : code.data.length = 1 := by
    rcases hcode with rfl | rfl | rfl | rfl <;> rfl
  have hq := qb64_string_spec hc raw hr
  have he := encodeBase64Url_length (List.replicate 1 0 ++ raw)
  rw [hq]
  have hlen : (String.mk (code.data ++ (encodeBase64Url (List.replicate 1 0 ++ raw)).drop 1)).length
      = 1 + 4 * ((raw.length + 1 + 0) / 3) - 1 := by
    show (code.data ++ (encodeBase64Url (List.replicate 1 0 ++ raw)).drop 1).length
      = 1 + 4 * ((raw.length + 1 + 0) / 3) - 1
    simp only [List.length_append, List.length_drop, List.length_replicate, hcl] at he ⊢
    omega
  refine ⟨?_, ?_⟩
  · simp only [Except.map]
    exact congrArg Except.ok hlen
  · simp only [Except.map, Except.ok.injEq, hlen]
    omega

/-- The base-64 integer value the specification describes: each character's
alphabet index weighted by 64 to its position counted from the right (so the
most significant digit comes first); digits are listed least significant
first here. -/
def b64DigitVal : List Char → Nat → Nat
  | [], _ => 0
  | c :: rest, e => (b64Idx c).getD 0 * 64 ^ e + b64DigitVal rest (e + 1)

/-- The base-64 integer value of a string, most significant digit first. -/
def b64Val (s : String) : Nat := b64DigitVal s.data.reverse 0

/-- Characters of the alphabet resolve to their index, which is below 64. -/
theorem mem_b64Idx {c : Char} (h : c ∈ b64Alphabet) :
    b64Idx c = some ((b64Idx c).getD 0) ∧ (b64Idx c).getD 0 < 64 := by
  fin_cases h <;> exact ⟨rfl, by decide⟩

/-- Every digit value is below 64 (unknown characters count as 0). -/
theorem b64IdxD_lt (c : Char) : (b64Idx c).getD 0 < 64 := by
  rcases h : b64Idx c with _ | d
  · simp
  · have : ∀ (l : List Char) (ch : Char) (i d : Nat),
        b64IdxGo l ch i = some d → d < i + l.length := by
      intro l
      induction l with
      | nil => intro ch i d hgo; simp [b64IdxGo] at hgo
      | cons a rest ih =>
        intro ch i d hgo
        unfold b64IdxGo at hgo
        split at hgo
        · simp at hgo
          simp only [List.length_cons]
          omega
        · have := ih ch (i + 1) d hgo
          simp at this ⊢
          omega
    have hlt := this b64Alphabet c 0 d h
    simp [h]
    have : b64Alphabet.length = 64 := by decide
    omega

/-- The digit-value sum is bounded by the obvious power. -/
theorem b64DigitVal_lt (ds : List Char) (e : Nat) :
    b64DigitVal ds e + 64 ^ e ≤ 64 ^ (e + ds.length) := by
  induction ds generalizing e with
  | nil => simp [b64DigitVal]
  | cons c rest ih =>
    have hd := b64IdxD_lt c
    have hih := ih (e + 1)
    simp only [b64DigitVal, List.length_cons]
    have h1 : 64 ^ (e + 1) = 64 ^ e * 64 := by rw [pow_succ]
    have h2 : e + (rest.length + 1) = (e + 1) + rest.length := by omega
    rw [h2]
    nlinarith [pow_pos (show (0:ℕ) < 64 by norm_num) e]

/-- The `forEach` accumulation agrees with the mathematical value while all
shifts stay inside the 32-bit register (at most five digits). -/
theorem b64ToIntAcc_spec (ds : List Char) (e u : Nat) (hlen : e + ds.length ≤ 5)
    (hmem : ∀ c ∈ ds, c ∈ b64Alphabet) (hu : u < 2 ^ (6 * e)) :
    b64ToIntAcc ds e u = u + b64DigitVal ds e := by
  induction ds generalizing e u with
  | nil => simp [b64ToIntAcc, b64DigitVal]
  | cons c rest ih =>
    have hc := mem_b64Idx (hmem c (by simp))
    have hd : (b64Idx c).getD 0 < 64 := hc.2
    have he : 6 * e % 32 = 6 * e := Nat.mod_eq_of_lt (by simp at hlen; omega)
    have hpow : (2 : Nat) ^ (6 * e) = 64 ^ e := by
      rw [show (64 : Nat) = 2 ^ 6 from rfl, ← pow_mul, Nat.mul_comm]
    have hshl : jsShlPat ((b64Idx c).getD 0) (6 * e) = (b64Idx c).getD 0 * 2 ^ (6 * e) := by
      unfold jsShlPat
      rw [he, Nat.shiftLeft_eq]
      apply Nat.mod_eq_of_lt
      calc (b64Idx c).getD 0 * 2 ^ (6 * e) < 64 * 2 ^ (6 * e) := by
              exact mul_lt_mul_of_pos_right hd (pow_pos (by norm_num) _)
        _ ≤ 64 * 2 ^ 24 := by
              have : 6 * e ≤ 24 := by simp at hlen; omega
              have := Nat.pow_le_pow_right (show 0 < 2 by norm_num) this
              nlinarith
        _ < 2 ^ 32 := by norm_num
    have hor : u ||| (b64Idx c).getD 0 * 2 ^ (6 * e) =
        (b64Idx c).getD 0 * 2 ^ (6 * e) + u := by
      have := Nat.mul_add_lt_is_or (i := 6 * e) hu ((b64Idx c).getD 0)
      rw [Nat.mul_comm ((2:Nat) ^ (6*e))] at this
      rw [Nat.lor_comm]
      exact this.symm
    have hstep : u + (b64Idx c).getD 0 * 2 ^ (6 * e) < 2 ^ (6 * (e + 1)) := by
      have h1 : 6 * (e + 1) = 6 * e + 6 := by ring
      rw [h1, pow_add]
      nlinarith [pow_pos (show (0:ℕ) < 2 by norm_num) (6 * e)]
    unfold b64ToIntAcc
    rw [hc.1]
    simp only [hshl, hor]
    rw [ih (e + 1) _ (by simp at hlen ⊢; omega) (fun x hx => hmem x (by simp [hx]))
      (by omega)]
    simp only [b64DigitVal, hpow]
    omega

/-- On at most five alphabet characters `b64ToInt` computes the base-64
value: the pattern never wraps and reads back as itself. -/
theorem b64ToInt_value (s : String) (hne : s.data ≠ [])
    (hmem : ∀ c ∈ s.data, c ∈ b64Alphabet) (hlen : s.data.length ≤ 5) :
    b64ToInt s = .ok ((b64Val s : Nat) : Int) := by
  unfold b64ToInt
  have hlen0 : ¬ (s.data.length = 0) := by
    intro h
    exact hne (List.length_eq_zero.mp h)
  rw [if_neg hlen0]
  have hacc := b64ToIntAcc_spec s.data.reverse 0 0
    (by simp only [List.length_reverse, Nat.zero_add]; exact hlen)
    (fun c hc => hmem c (List.mem_reverse.1 hc)) (by norm_num)
  rw [hacc, Nat.zero_add]
  have hbound := b64DigitVal_lt s.data.reverse 0
  have hlt : b64DigitVal s.data.reverse 0 < 2 ^ 31 := by
    have h64 : (64 : Nat) ^ (0 + s.data.reverse.length) ≤ 64 ^ 5 := by
      apply Nat.pow_le_pow_right (by norm_num)
      simp only [List.length_reverse, Nat.zero_add]
      exact hlen
    have : (64 : Nat) ^ 5 < 2 ^ 31 + 1 := by norm_num
    omega
  unfold asInt32 b64Val
  have hmod : b64DigitVal s.data.reverse 0 % 2 ^ 32 = b64DigitVal s.data.reverse 0 := by
    apply Nat.mod_eq_of_lt
    have : (2:Nat) ^ 31 < 2 ^ 32 := by norm_num
    omega
  rw [hmod]
  rw [if_pos (by omega)]

/-- C6 fails on the code at `*`: the character is outside the alphabet, yet
`b64ToInt` returns 0 instead of a decode error (the unchecked map lookup
yields `undefined`, which the bitwise-or treats as 0).  The value clause
fails too: on the six alphabet characters `QAAAAA` the 32-bit accumulator
wraps, returning 0 instead of `16 * 64 ^ 5`. -/
theorem C6_counterexample :
    b64ToInt (String.mk ['*']) = .ok 0 ∧
      ¬ ('*' ∈ b64Alphabet) ∧
      b64ToInt ("QAAAAA") = .ok 0 ∧
      (("QAAAAA") : String).data.all (fun c => decide (c ∈ b64Alphabet)) = true ∧
      b64Val ("QAAAAA") = 16 * 64 ^ 5 ∧
      (0 : Int) ≠ ((16 * 64 ^ 5 : Nat) : Int) := by
  refine ⟨by decide, by decide, by decide, by decide, by decide, by decide⟩

/-- C6 amended: `b64ToInt` fails with the decode error exactly on the empty
string; a character outside the alphabet is treated as digit 0 rather than
rejected; and for every nonempty string over the alphabet of at most five
characters (so that the 32-bit accumulator cannot wrap) it returns the
base-64 integer value with `A` as digit 0 through `_` as 63, most
significant digit first. -/
theorem C6_b64ToInt_amended :
    b64ToInt (String.mk []) = .error .decodeEmpty ∧
      (∀ s : String, s.data ≠ [] → (∀ c ∈ s.data, c ∈ b64Alphabet) →
        s.data.length ≤ 5 → b64ToInt s = .ok ((b64Val s : Nat) : Int)) := by
  exact ⟨by decide, fun s hne hmem hlen => b64ToInt_value s hne hmem hlen⟩

/-- Witness for the amended C6 on a concrete five-character string. -/
theorem C6_witness :
    b64ToInt ("Zz9-_") = .ok ((b64Val ("Zz9-_") : Nat) : Int) ∧
      b64Val ("Zz9-_") = 25 * 64 ^ 4 + 51 * 64 ^ 3 + 61 * 64 ^ 2 + 62 * 64 + 63 :=
  ⟨(C6_b64ToInt_amended).2 ("Zz9-_") (by decide) (by decide) (by decide), by decide⟩

/-- A trivial instantiation of the external CBOR/MessagePack collaborators;
the JSON paths exercised at concrete inputs never consult them. -/
def nullCodecs : ExtCodecs where
  cbor := fun _ => []
  mgpk := fun _ => []
  cbor_bounded := fun _ => by norm_num
  mgpk_bounded := fun _ => by norm_num

/-- A concrete instantiation of the digest collaborators returning a fixed
32-byte output, used to evaluate the pipeline at concrete inputs. -/
def zeroDigests : Digests where
  blake3_256 := fun _ => List.replicate 32 0
  blake2b_256 := fun _ => List.replicate 32 0
  sha2_256 := fun _ => List.replicate 32 0
  sha3_256 := fun _ => List.replicate 32 0

/-- C7: when the label key is absent, both `deriveSAIDBytes` and `saidify`
fail with the missing-label error before doing anything else, for every
digest/codec collaborator, code, kind and label. -/
theorem C7_missing_label (D : Digests) (C : ExtCodecs) (data : Dict)
    (code : String) (kind : Serials) (label : String)
    (h : dictGet data label = none) :
    deriveSAIDBytes D C data code kind label = .error .missingLabel ∧
      saidify D C data label code kind = .error .missingLabel := by
  have hk : hasKey data label = false := by simp [hasKey, h]
  constructor
  · unfold deriveSAIDBytes
    simp [hk]
    rfl
  · unfold saidify deriveSAIDBytes
    simp [hk]
    rfl

/-- Witness for C7 on a structure that lacks the default label `d`. -/
theorem C7_witness :
    deriveSAIDBytes zeroDigests nullCodecs [(("a"), Val.vnum 1)] ("E") .JSON ("d")
        = .error .missingLabel ∧
      saidify zeroDigests nullCodecs [(("a"), Val.vnum 1)] ("d") ("E") .JSON
        = .error .missingLabel :=
  C7_missing_label zeroDigests nullCodecs [(("a"), Val.vnum 1)] ("E") .JSON ("d") (by decide)

/-- C10 amended: *when the internal derivation succeeds*, calling `verify`
with `prefixed = true` but the `said` argument omitted returns `false`: the
prefixed cross-check compares the (present) `sad[label]` against the absent
`said` with strict equality, which can never hold — regardless of whether
the embedded value is the correct SAID.  The success hypothesis is
necessary: with a parseable `v` field the derivation throws before the
prefixed check is reached (see the counterexample). -/
theorem C10_prefixed_without_said (D : Digests) (C : ExtCodecs) (sad : Dict)
    (label : String) (code : String) (kind : Serials) (r : List Nat × Dict)
    (h : deriveSAIDBytes D C sad code kind label = .ok r) :
    verify D C sad none label code kind true false = .ok false := by
  have hk : hasKey sad label = true := by
    by_contra hk
    have hk2 : hasKey sad label = false := by simpa using hk
    have : deriveSAIDBytes D C sad code kind label = .error .missingLabel := by
      unfold deriveSAIDBytes
      simp [hk2]
      rfl
    rw [this] at h
    exact Except.noConfusion h
  unfold verify
  simp only [hk, Bool.not_true, Bool.false_eq_true, not_false_eq_true, ite_false, if_neg]
  rw [h]
  simp [valEqOptStr, bind, Except.bind]
  rfl

/-- Counterexample to C10 as frozen: a structure whose label field is
defined but whose parseable `v` field makes the internal derivation throw —
`verify` with `prefixed = true` and `said` omitted propagates the exception
(from re-parsing the regenerated version field) instead of returning
`false`. -/
theorem C10_counterexample :
    dictGet [(("d"), Val.vstr ("x")), (("v"), Val.vstr ("KERICAAJSONAAAA."))] ("d")
        = some (Val.vstr ("x")) ∧
      verify zeroDigests nullCodecs
        [(("d"), Val.vstr ("x")), (("v"), Val.vstr ("KERICAAJSONAAAA."))]
        none ("d") ("E") .JSON true false = .error .invalidProtocol := by
  decide

/-- Witness for C10: a derivable structure whose label even matches
nothing in particular still verifies to `false` under `prefixed`. -/
theorem C10_witness :
    verify zeroDigests nullCodecs [(("d"), Val.vstr ("x"))] none ("d") ("E") .JSON true false
      = .ok false :=
  C10_prefixed_without_said zeroDigests nullCodecs [(("d"), Val.vstr ("x"))] ("d") ("E") .JSON
    (List.replicate 32 0,
      [(("d"), Val.vstr (String.mk (List.replicate 44 SAID_PAD_CHARACTER)))])
    (by decide)

/-- C8: `deriveSAIDBytes`, `saidify` and `verify` leave the caller's object
unchanged — in the heap embedding, for every heap and every address the
caller holds, the object at that address is identical after each call (so
every top-level key, including the label and `v` fields, maps to the same
value): all placeholder substitution and version rewriting target only the
freshly allocated clone. -/
theorem C8_no_caller_mutation (D : Digests) (C : ExtCodecs) (h : Heap) (a : Nat)
    (code : String) (kind : Serials) (label : String) (said : Option String)
    (prefixed versioned : Bool) (ha : a < h.length) :
    hget ((deriveSAIDBytesH D C h a code kind label).2) a = hget h a ∧
      hget ((saidifyH D C h a label code kind).2) a = hget h a ∧
      hget ((verifyH D C h a said label code kind prefixed versioned).2) a = hget h a :=
  ⟨deriveSAIDBytesH_frame D C h a code kind label a ha,
    saidifyH_frame D C h a label code kind a ha,
    verifyH_frame D C h a said label code kind prefixed versioned a ha⟩

/-- Witness for C8 on a one-object heap. -/
theorem C8_witness :
    hget ((deriveSAIDBytesH zeroDigests nullCodecs [[(("d"), Val.vstr (""))]] 0 ("E") .JSON
        ("d")).2) 0 = hget [[(("d"), Val.vstr (""))]] 0 ∧
      hget ((saidifyH zeroDigests nullCodecs [[(("d"), Val.vstr (""))]] 0 ("d") ("E")
        .JSON).2) 0 = hget [[(("d"), Val.vstr (""))]] 0 ∧
      hget ((verifyH zeroDigests nullCodecs [[(("d"), Val.vstr (""))]] 0 none ("d") ("E")
        .JSON false false).2) 0 = hget [[(("d"), Val.vstr (""))]] 0 :=
  C8_no_caller_mutation zeroDigests nullCodecs [[(("d"), Val.vstr (""))]] 0 ("E") .JSON
    ("d") none false false (by decide)

set_option maxHeartbeats 2000000 in
/-- C5: when `saidify(data, label, code, kind)` returns `(said, sad)`,
`verify(sad, said, label, code, kind)` (with the source defaults
`prefixed = false`, `versioned = false`) returns `true`: the derivation
inside `verify` re-placeholders the label field of `sad`, reproduces the
identical serialization and digest, and its qualified form equals `said`. -/
theorem C5_verify_after_saidify (D : Digests) (C : ExtCodecs) (data : Dict)
    (label code : String) (kind : Serials) (said : String) (sad : Dict)
    (h : saidify D C data label code kind = .ok (said, sad)) :
    verify D C sad (some said) label code kind false false = .ok true := by
  unfold saidify at h
  rcases hd : deriveSAIDBytes D C data code kind label with e | pr <;> rw [hd] at h
  · simp [bind, Except.bind] at h
  obtain ⟨raw, sad0⟩ := pr
  simp only [bind, Except.bind, pure, Except.pure] at h
  rcases hq : qb64 raw code with e | sd <;> rw [hq] at h
  · simp [bind, Except.bind, Functor.map, Except.map] at h
  simp only [bind, Except.bind, pure, Except.pure, Functor.map, Except.map,
    Except.ok.injEq, Prod.mk.injEq] at h
  obtain ⟨hsd, hsad⟩ := h
  subst hsd
  subst hsad
  obtain ⟨hl, algo, hs, hsad0, hvf, f, hf, ser, hdmp, hraw, hvr⟩ := deriveSAIDBytes_ok_inv hd
  subst hsad0
  set ph : Val := Val.vstr (String.mk (List.replicate algo.fs.toNat SAID_PAD_CHARACTER))
    with hph
  set sad1 : Dict := setKey (setKey data label ph) label (Val.vstr sd) with hsad1
  have hkey : setKey sad1 label ph = setKey data label ph := by
    rw [hsad1, setKey_setKey, setKey_setKey]
  have hl2 : hasKey sad1 label = true := by
    rw [hsad1]
    exact hasKey_setKey_self _ _ _
  have hv2 : hasKey (setKey sad1 label ph) ("v") = false := by
    rw [hkey]
    exact hvf
  have hd2 : dumpBytes C (setKey sad1 label ph) kind = .ok ser := by
    rw [hkey]
    exact hdmp
  rw [hraw] at hvr
  have hder2 := deriveSAIDBytes_eval D C sad1 code kind label algo f ser hl2 hs hv2 hf
    hd2 hvr
  rw [hkey, ← hraw] at hder2
  unfold verify
  rw [if_neg (by simp [hl2])]
  simp only [bind, Except.bind, pure, Except.pure]
  rw [hder2]
  simp only [bind, Except.bind, pure, Except.pure]
  rw [if_neg (by simp)]
  try simp only [bind, Except.bind, pure, Except.pure]
  rw [if_neg (by simp)]
  try simp only [bind, Except.bind, pure, Except.pure]
  by_cases hse : sd = String.mk []
  · rw [if_neg (by simp [hse])]
    rw [hq]
    simp [valEqStr, dictGet_setKey_self, hsad1, bind, Except.bind, pure, Except.pure]
  · rw [if_pos hse]
    rw [hq]
    simp [bind, Except.bind, pure, Except.pure]

/-- Witness for C5 at the Blake3 code on a minimal structure: `saidify`
yields the all-zero digest qualification and `verify` accepts it. -/
theorem C5_witness :
    saidify zeroDigests nullCodecs [(("d"), Val.vstr (""))] ("d") ("E") Serials.JSON
        = .ok (String.mk ('E' :: List.replicate 43 'A'),
            [(("d"), Val.vstr (String.mk ('E' :: List.replicate 43 'A')))]) ∧
      verify zeroDigests nullCodecs
          [(("d"), Val.vstr (String.mk ('E' :: List.replicate 43 'A')))]
          (some (String.mk ('E' :: List.replicate 43 'A'))) ("d") ("E") Serials.JSON
          false false = .ok true :=
  ⟨by decide, C5_verify_after_saidify zeroDigests nullCodecs [(("d"), Val.vstr (""))]
    ("d") ("E") Serials.JSON (String.mk ('E' :: List.replicate 43 'A'))
    [(("d"), Val.vstr (String.mk ('E' :: List.replicate 43 'A')))] (by decide)⟩

/-- C2 fails on the code: the combined `VEREX2|VEREX1` regular expression
has ten capture groups, and a dialect-1 match's captures land in groups
6–10 while both parsers read groups 1–5, so `deversify` throws the
invalid-protocol error on every dialect-1 string — including the very one
`versify` produces; and for major 2 `versify` emits the 17-character
`KERICAJSONAAAAAA.`, whose only `VEREX2` window captures the invalid
protocol tag `ERIC`, so it is rejected as well.  The repository's own
round-trip test suite expects the identity in both dialects. -/
theorem C2_roundtrip_fails :
    versify .KERI ⟨some 1, some 0⟩ .JSON (some 0) = .ok ("KERI10JSON000000_") ∧
      deversify ("KERI10JSON000000_") = .error .invalidProtocol ∧
      versify .KERI ⟨some 2, some 0⟩ .JSON (some 0) = .ok ("KERICAJSONAAAAAA.") ∧
      deversify ("KERICAJSONAAAAAA.") = .error .invalidProtocol := by
  decide

/-- C3 fails on the code: on the dialect-2 input `KERICAAJSONAAAA.` (which
`deversify` accepts), `sizeify` with JSON measures 24 bytes, regenerates the
`v` field as the 18-character `KERIMCqJSONAAAAAY.` — whose recorded size is
the Base64 of 24 — and then returns a 26-byte final serialization, so the
recorded size disagrees with the returned byte count. -/
theorem C3_sizeify_size_mismatch :
    deversify ("KERICAAJSONAAAA.") = .ok (.KERI, ⟨some 12, some 170⟩, .JSON, some 43690) ∧
      (sizeify nullCodecs [(("v"), Val.vstr ("KERICAAJSONAAAA."))] (some .JSON)).map
          (fun r => (r.raw.length, dictGet r.data ("v"))) =
        .ok (26, some (Val.vstr ("KERIMCqJSONAAAAAY."))) ∧
      versify .KERI ⟨some 12, some 170⟩ .JSON (some 24) = .ok ("KERIMCqJSONAAAAAY.") ∧
      (24 : Nat) ≠ 26 := by
  decide

/-- C4 fails on the code for the dialect-2 half: the dialect-1 literal
`KERI10JSON000000_` is produced as claimed, but for major 2 the code emits
a one-character minor and a six-character size, giving the 17-character
`KERICAJSONAAAAAA.` instead of the claimed 16-character
`KERICAAJSONAAAA.`. -/
theorem C4_versify_literals :
    versify .KERI ⟨some 1, some 0⟩ .JSON (some 0) = .ok ("KERI10JSON000000_") ∧
      (("KERI10JSON000000_") : String).length = 17 ∧
      versify .KERI ⟨some 2, some 0⟩ .JSON (some 0) = .ok ("KERICAJSONAAAAAA.") ∧
      (("KERICAJSONAAAAAA.") : String) ≠ ("KERICAAJSONAAAA.") ∧
      (("KERICAJSONAAAAAA.") : String).length = 17 := by
  decide

/-- Witness for C9 at the Blake3 code and a two-byte raw, where the result
has 4 characters, not 44. -/
theorem C9_witness :
    ((qb64 [255, 255] ("E")).map String.length = .ok (1 + 4 * (([255, 255].length : Nat) + 1 + 0) / 3 - 1) ∧
      ((qb64 [255, 255] ("E")).map String.length = .ok 44 ↔ ([255, 255] : List Nat).length = 32)) ∧
      ¬ ([255, 255] : List Nat).length = 32 := by
  refine ⟨?_, by decide⟩
  have h := C9_qb64b_no_length_validation ("E") (Or.inl rfl) [255, 255] (by decide)
  simpa using h

end Saidify
